import Mathlib

/-!
Distributor permissions (challenge2016, `main.go`)

A shallow embedding of the permission evaluator of `main.go`:

* `City`, `DistributorPermissions` — the two record types;
* `isContained` — the region matcher (exact match for exclusions, substring
  match for inclusions, both after lower-casing);
* `hasPermissions` — the recursive evaluator that first asks the parent rule
  set and then applies the local exclude / include lists;
* `checkPermissions` — the driver that evaluates every city against every
  rule set;
* `getDistributorPermissionsFromUser` — the three reads with `fmt.Scanln`
  and the construction of a rule set from the strings that were read (split
  at commas, trim spaces).

Modelling conventions:

* Go strings are taken to be valid UTF-8 text and are represented by Lean
  strings (sequences of code points).  On such strings Go's byte-wise `==`
  and `strings.Contains` coincide with equality and contiguous-sublist search
  on code points.
* `strings.ToLower` maps every code point through the table
  `unicode.ToLower`.  That table belongs to the Go standard library, so it is
  a parameter `lower : Char → Char` of the embedding; every general theorem
  holds for every table.  Closed examples instantiate it with `Char.toLower`,
  which agrees with `unicode.ToLower` on ASCII.
* `Parent *DistributorPermissions` is a pointer, and pointers may form a
  cycle.  Rule sets therefore live in a heap (`Heap`), `Parent` is an
  optional address, and `hasPermissions` carries a fuel argument that bounds
  the recursion depth: `none` means that the fuel ran out.  `Returns` says
  that some amount of fuel is enough.
* The `fmt.Printf` diagnostics of `isContained` and `hasPermissions` have no
  influence on any returned value and are left out.  The result line that
  `checkPermissions` prints per pair is kept, as the record of the five
  arguments of its format string.
* The standard input is a sequence of code points.  `fmt.Scanln` with one
  string operand follows package `fmt`: leading spaces are skipped, the token
  runs up to the next space character, and only spaces may follow before the
  newline or the end of the input; an empty line, an exhausted input and a
  second word on the line are errors.  The prompts written with `fmt.Println`
  are left out.
-/

namespace Challenge2016

/-! ## Data model -/

/-- Record `City` of `main.go` (lines 10-15). -/
structure City where
  Code : String
  Name : String
  Province : String
  Country : String
  deriving DecidableEq, Repr

/-- An address of a rule set in the heap; stands for a non-nil
`*DistributorPermissions`. -/
abbrev Ptr := Nat

/-- Record `DistributorPermissions` of `main.go` (lines 17-22).  `Parent` is
`none` for the nil pointer. -/
structure DistributorPermissions where
  DistributorName : String
  IncludeRegion : List String
  ExcludeRegion : List String
  Parent : Option Ptr
  deriving DecidableEq, Repr

/-- The heap: the rule set stored at every address. -/
abbrev Heap := Ptr → DistributorPermissions

/-! ## Standard-library string functions -/

/-- Go `strings.ToLower`: every code point is sent through the case table
`lower` (`unicode.ToLower`). -/
def strings_ToLower (lower : Char → Char) (s : String) : String :=
  ⟨s.data.map lower⟩

/-- Naive search: does `sub` occur in `s` at some position? -/
def hasInfix : List Char → List Char → Bool
  | [], sub => sub.isEmpty
  | c :: cs, sub => sub.isPrefixOf (c :: cs) || hasInfix cs sub

/-- Go `strings.Contains s substr`: `substr` occurs within `s`. -/
def strings_Contains (s substr : String) : Bool :=
  hasInfix s.data substr.data

/-! ## Region matcher -/

/-- The loop of `isContained` (lines 62-78) over the rule list, `item` being
already lower-cased. -/
def isContainedLoop (lower : Char → Char) (item : String) (isExclusion : Bool) :
    List String → Bool
  | [] => false
  | s :: rest =>
    let s := strings_ToLower lower s
    if isExclusion then
      if s = item then true else isContainedLoop lower item isExclusion rest
    else
      if strings_Contains s item then true
      else isContainedLoop lower item isExclusion rest

/-- Function `isContained` of `main.go` (lines 60-79). -/
def isContained (lower : Char → Char) (list : List String) (item : String)
    (isExclusion : Bool) : Bool :=
  let item := strings_ToLower lower item
  isContainedLoop lower item isExclusion list

/-! ## Permission evaluator -/

/-- The condition of line 97: one of the city's three attributes is matched
by the exclude list. -/
def excludeMatches (lower : Char → Char) (dp : DistributorPermissions) (city : City) : Bool :=
  isContained lower dp.ExcludeRegion city.Country true
    || isContained lower dp.ExcludeRegion city.Province true
    || isContained lower dp.ExcludeRegion city.Name true

/-- The condition of line 103: one of the city's three attributes is matched
by the include list. -/
def includeMatches (lower : Char → Char) (dp : DistributorPermissions) (city : City) : Bool :=
  isContained lower dp.IncludeRegion city.Country false
    || isContained lower dp.IncludeRegion city.Province false
    || isContained lower dp.IncludeRegion city.Name false

/-- Lines 96-107 of `hasPermissions`: the decision of the rule set's own
lists, reached once the parent did not veto. -/
def localDecision (lower : Char → Char) (dp : DistributorPermissions) (city : City) : String :=
  if excludeMatches lower dp city then "NO"
  else if includeMatches lower dp city then "YES"
  else "NO"

/-- Function `hasPermissions` of `main.go` (lines 83-108), on the rule set
stored at address `dp`.  The first argument after the heap is the fuel: the
number of nested calls that may still be made. -/
def hasPermissions (lower : Char → Char) (mem : Heap) : Nat → Ptr → City → Option String
  | 0, _, _ => none
  | fuel + 1, dp, city =>
    match (mem dp).Parent with
    | some parent =>
      match hasPermissions lower mem fuel parent city with
      | none => none
      | some r =>
        if r = "NO" then some "NO"
        else some (localDecision lower (mem dp) city)
    | none => some (localDecision lower (mem dp) city)

/-- The call `hasPermissions(dp, city)` terminates and returns `r`. -/
def Returns (lower : Char → Char) (mem : Heap) (dp : Ptr) (city : City) (r : String) : Prop :=
  ∃ fuel, hasPermissions lower mem fuel dp city = some r

/-- Following `Parent` links from `dp`, a rule set without parent is reached
after at most `n` links. -/
def chainEnds (mem : Heap) : Nat → Ptr → Bool
  | 0, dp => (mem dp).Parent.isNone
  | n + 1, dp =>
    match (mem dp).Parent with
    | none => true
    | some parent => chainEnds mem n parent

/-- The parent chain of `dp` is finite (acyclic). -/
def FiniteChain (mem : Heap) (dp : Ptr) : Prop :=
  ∃ n, chainEnds mem n dp = true

/-- The ancestor of `dp` that is `k` links up the parent chain, if the chain
is that long (`k = 0` gives `dp` itself). -/
def ancestor (mem : Heap) : Nat → Ptr → Option Ptr
  | 0, dp => some dp
  | k + 1, dp =>
    match (mem dp).Parent with
    | none => none
    | some parent => ancestor mem k parent

/-- The local test of one rule set in the words of the specification: the
exclude list matches none of the city's Country, Province and Name in
exclusion mode, and the include list matches at least one of them in
inclusion mode. -/
def LocalTest (lower : Char → Char) (dp : DistributorPermissions) (city : City) : Prop :=
  (isContained lower dp.ExcludeRegion city.Country true = false ∧
    isContained lower dp.ExcludeRegion city.Province true = false ∧
    isContained lower dp.ExcludeRegion city.Name true = false) ∧
  (isContained lower dp.IncludeRegion city.Country false = true ∨
    isContained lower dp.IncludeRegion city.Province false = true ∨
    isContained lower dp.IncludeRegion city.Name false = true)

instance (lower : Char → Char) (dp : DistributorPermissions) (city : City) :
    Decidable (LocalTest lower dp city) := by
  unfold LocalTest
  infer_instance

/-! ## Evaluation driver -/

/-- One result line printed by `checkPermissions` (line 115), as the five
arguments of its format string. -/
structure PermissionRecord where
  DistributorName : String
  Name : String
  Province : String
  Country : String
  Result : String
  deriving DecidableEq, Repr

/-- Inner loop of `checkPermissions` (lines 113-116): one city against the
rule sets in order.  Every call of `hasPermissions` gets the fuel `fuel`;
`none` means that some call ran out of it. -/
def checkPermissionsInner (lower : Char → Char) (mem : Heap) (fuel : Nat) (city : City) :
    List Ptr → Option (List PermissionRecord)
  | [] => some []
  | dp :: rest =>
    match hasPermissions lower mem fuel dp city with
    | none => none
    | some result =>
      match checkPermissionsInner lower mem fuel city rest with
      | none => none
      | some out =>
        some ({ DistributorName := (mem dp).DistributorName, Name := city.Name,
                Province := city.Province, Country := city.Country, Result := result } :: out)

/-- Function `checkPermissions` of `main.go` (lines 111-118); the two global
slices `cities` and `distributorPermissions` are arguments, the printed result
lines are returned in the order of printing. -/
def checkPermissions (lower : Char → Char) (mem : Heap) (fuel : Nat) :
    List City → List Ptr → Option (List PermissionRecord)
  | [], _ => some []
  | city :: rest, distributorPermissions =>
    match checkPermissionsInner lower mem fuel city distributorPermissions with
    | none => none
    | some row =>
      match checkPermissions lower mem fuel rest distributorPermissions with
      | none => none
      | some out => some (row ++ out)

/-! ## Rule input -/

/-- Splitting of a sequence of code points at every occurrence of `sep`; the
result has one piece more than there are separators. -/
def splitChars (sep : Char) : List Char → List (List Char)
  | [] => [[]]
  | c :: cs =>
    if c = sep then [] :: splitChars sep cs
    else
      match splitChars sep cs with
      | [] => [[c]]
      | piece :: pieces => (c :: piece) :: pieces

/-- Go `strings.Split s sep` for a separator of one code point. -/
def strings_Split (s : String) (sep : Char) : List String :=
  (splitChars sep s.data).map String.mk

/-- Removal of all leading and all trailing code points that occur in
`cutset`. -/
def trimChars (cutset : List Char) (l : List Char) : List Char :=
  (l.dropWhile (fun c => cutset.contains c)).rdropWhile (fun c => cutset.contains c)

/-- Go `strings.Trim s cutset`. -/
def strings_Trim (s cutset : String) : String :=
  ⟨trimChars cutset.data s.data⟩

/-- Lines 145-153 of `getDistributorPermissionsFromUser`, for one of the two
input strings: split at the commas, then trim every piece with the cutset
" ". -/
def parseRegions (input : String) : List String :=
  (strings_Split input ',').map (fun piece => strings_Trim piece " ")

/-- The space characters of package `fmt` (its table `space`, the Unicode
property White_Space); the newline is one of them. -/
def isSpace (c : Char) : Bool :=
  let n := c.toNat
  (0x09 ≤ n && n ≤ 0x0d) || n == 0x20 || n == 0x85 || n == 0xa0 || n == 0x1680
    || (0x2000 ≤ n && n ≤ 0x200a) || n == 0x2028 || n == 0x2029 || n == 0x202f
    || n == 0x205f || n == 0x3000

/-- `SkipSpace` of package `fmt` in a scan where a newline ends the input
(`Scanln`): leading spaces are consumed; `none` is the error "unexpected
newline". -/
def skipSpace : List Char → Option (List Char)
  | [] => some []
  | c :: cs =>
    if c = '\r' ∧ cs.head? = some '\n' then skipSpace cs
    else if c = '\n' then none
    else if isSpace c then skipSpace cs
    else some (c :: cs)

/-- The check at the end of `Scanln`: after the last operand only spaces may
come before the newline or the end of the input; `none` is the error "expected
newline". -/
def expectNewline : List Char → Option (List Char)
  | [] => some []
  | c :: cs =>
    if c = '\n' then some cs
    else if isSpace c then expectNewline cs
    else none

/-- Go `fmt.Scanln(&s)` with one string operand on the input `stdin`: the
token that was read and the input left over, or `none` for an error. -/
def fmt_Scanln (stdin : List Char) : Option (String × List Char) :=
  match skipSpace stdin with
  | none => none
  | some [] => none
  | some (c :: cs) =>
    match expectNewline ((c :: cs).dropWhile (fun r => !isSpace r)) with
    | none => none
    | some rest => some (⟨(c :: cs).takeWhile (fun r => !isSpace r)⟩, rest)

/-- Function `getDistributorPermissionsFromUser` of `main.go` (lines 121-162)
on the standard input `stdin`: three reads with `fmt.Scanln`, each error
returned at once (`none`), then the split and trim of lines 145-153 and the
record of lines 156-160.  The result carries the input that is left for the
next call. -/
def getDistributorPermissionsFromUser (stdin : List Char) :
    Option (DistributorPermissions × List Char) :=
  match fmt_Scanln stdin with
  | none => none
  | some (distributorName, stdin1) =>
    match fmt_Scanln stdin1 with
    | none => none
    | some (includeInput, stdin2) =>
      match fmt_Scanln stdin2 with
      | none => none
      | some (excludeInput, stdin3) =>
        some ({ DistributorName := distributorName
                IncludeRegion := parseRegions includeInput
                ExcludeRegion := parseRegions excludeInput
                Parent := none }, stdin3)

/-- The first or the last code point of `token` satisfies `p`. -/
def startsOrEndsWith (p : Char → Bool) (token : String) : Bool :=
  token.data.head?.any p || token.data.getLast?.any p

/-- The list `stored` is a sequence of comma-delimited pieces of `input`, in
input order: the tokens joined by commas give back the input, there is at
least one token, and no token contains a comma. -/
def CommaPieces (input : String) (stored : List String) : Prop :=
  List.intercalate [','] (stored.map String.data) = input.data ∧ stored ≠ [] ∧
    ∀ token ∈ stored, ',' ∉ token.data

/-- A string that `fmt.Scanln` can deliver: not empty and free of space
characters. -/
def isToken (s : String) : Bool :=
  !s.data.isEmpty && s.data.all (fun c => !isSpace c)

/-- The words of C14 about one input string and the list stored for it: the
stored list is the sequence of the comma-delimited pieces of the input in
input order, it is the only such sequence, and no stored token begins or ends
with a whitespace character (`isSpace`, which covers space, tab, carriage
return and newline). -/
def StoredAsClaimed (input : String) (stored : List String) : Prop :=
  CommaPieces input stored ∧ (∀ other, CommaPieces input other → other = stored) ∧
    ∀ token ∈ stored, startsOrEndsWith isSpace token = false

/-! ## Concrete data used in examples -/

/-- The city of the end-to-end example. -/
def paris : City :=
  { Code := "PARIS", Name := "Paris", Province := "Ile-de-France", Country := "France" }

/-- Heap of the end-to-end example: distributor A at address 0 without
parent, distributor B at address 1 with parent A. -/
def exampleHeap : Heap := fun p =>
  if p = 0 then
    { DistributorName := "A", IncludeRegion := ["France"], ExcludeRegion := [], Parent := none }
  else
    { DistributorName := "B", IncludeRegion := ["Paris"], ExcludeRegion := ["Ile-de-France"],
      Parent := some 0 }

/-- Heap in which the parent (address 0) denies the city `paris` while the
child (address 1) lists it. -/
def vetoHeap : Heap := fun p =>
  if p = 0 then
    { DistributorName := "A", IncludeRegion := ["Germany"], ExcludeRegion := [], Parent := none }
  else
    { DistributorName := "B", IncludeRegion := ["Paris", "France"], ExcludeRegion := [],
      Parent := some 0 }

/-- Heap with a chain of three levels: address 0 is the root, address 1 has
parent 0, every other address has parent 1. -/
def chainHeap : Heap := fun p =>
  if p = 0 then
    { DistributorName := "A", IncludeRegion := ["France"], ExcludeRegion := [], Parent := none }
  else if p = 1 then
    { DistributorName := "B", IncludeRegion := ["Paris"], ExcludeRegion := ["Lyon"],
      Parent := some 0 }
  else
    { DistributorName := "C", IncludeRegion := ["ile-de-france"], ExcludeRegion := ["PARIS"],
      Parent := some 1 }

/-- A rule set without parent whose only include rule is "States" (stored at
every address). -/
def statesHeap : Heap := fun _ =>
  { DistributorName := "D", IncludeRegion := ["States"], ExcludeRegion := [], Parent := none }

/-- A city of the country "United States". -/
def newYork : City :=
  { Code := "NYCUS", Name := "New York", Province := "New York", Country := "United States" }

/-- A city of the country "United States" whose name occurs inside "states". -/
def tate : City :=
  { Code := "TATUS", Name := "Tate", Province := "Georgia", Country := "United States" }

/-- A city that the root of `chainHeap` does not list. -/
def berlin : City :=
  { Code := "BERDE", Name := "Berlin", Province := "Berlin", Country := "Germany" }

/-- Heap with empty rule sets: address 0 is a root with two empty lists,
address 1 is a root that lists France, every other address has two empty lists
and parent 1. -/
def emptyHeap : Heap := fun p =>
  if p = 0 then
    { DistributorName := "E", IncludeRegion := [], ExcludeRegion := [], Parent := none }
  else if p = 1 then
    { DistributorName := "A", IncludeRegion := ["France"], ExcludeRegion := [], Parent := none }
  else
    { DistributorName := "F", IncludeRegion := [], ExcludeRegion := [], Parent := some 1 }

/-- The parent chain of `dp` runs into a cycle: some rule set `a` on the chain
is its own ancestor a positive number `m` of links up. -/
def CyclicChain (mem : Heap) (dp : Ptr) : Prop :=
  ∃ k a m, ancestor mem k dp = some a ∧ 0 < m ∧ ancestor mem m a = some a

/-- Heap with a cycle of two rule sets: address 0 has parent 1, every other
address has parent 0.  The lists of address 0 would grant Paris. -/
def cycleHeap : Heap := fun p =>
  if p = 0 then
    { DistributorName := "A", IncludeRegion := ["France"], ExcludeRegion := [], Parent := some 1 }
  else
    { DistributorName := "B", IncludeRegion := ["Paris"], ExcludeRegion := [], Parent := some 0 }

/-- A city whose Province is the empty string. -/
def singapore : City :=
  { Code := "SGSIN", Name := "Singapore", Province := "", Country := "Singapore" }

/-- The rule sets of `chainHeap` with longer exclude lists at addresses 0 and 1
(same parents, same include lists). -/
def chainHeapMoreExcluded : Heap := fun p =>
  if p = 0 then
    { DistributorName := "A", IncludeRegion := ["France"], ExcludeRegion := ["Nice"],
      Parent := none }
  else if p = 1 then
    { DistributorName := "B", IncludeRegion := ["Paris"], ExcludeRegion := ["Lyon", "Lille"],
      Parent := some 0 }
  else
    { DistributorName := "C", IncludeRegion := ["ile-de-france"], ExcludeRegion := ["PARIS"],
      Parent := some 1 }

/-- The rule sets of `exampleHeap` under other distributor names. -/
def exampleHeapRenamed : Heap := fun p =>
  if p = 0 then
    { DistributorName := "Acme", IncludeRegion := ["France"], ExcludeRegion := [],
      Parent := none }
  else
    { DistributorName := "Bolt", IncludeRegion := ["Paris"], ExcludeRegion := ["Ile-de-France"],
      Parent := some 0 }

/-- The city `paris` under another code. -/
def parisOtherCode : City :=
  { Code := "PAR75", Name := "Paris", Province := "Ile-de-France", Country := "France" }

/-! ## Lemmas on the string functions -/

theorem hasInfix_iff (s sub : List Char) : hasInfix s sub = true ↔ sub <:+: s := by
  induction s with
  | nil => simp [hasInfix]
  | cons c cs ih =>
    simp only [hasInfix, Bool.or_eq_true, ih, List.isPrefixOf_iff_prefix, List.infix_cons_iff]

theorem strings_Contains_iff (s substr : String) :
    strings_Contains s substr = true ↔ substr.data <:+: s.data := by
  simp [strings_Contains, hasInfix_iff]

theorem strings_ToLower_length (lower : Char → Char) (s : String) :
    (strings_ToLower lower s).length = s.length := by
  cases s
  exact List.length_map _ _

/-! ## Lemmas on the region matcher -/

theorem isContainedLoop_exclusion_iff (lower : Char → Char) (item : String) (list : List String) :
    isContainedLoop lower item true list = true ↔
      ∃ rule ∈ list, strings_ToLower lower rule = item := by
  induction list with
  | nil => simp [isContainedLoop]
  | cons s rest ih =>
    by_cases h : strings_ToLower lower s = item
    · simp [isContainedLoop, h]
    · simp [isContainedLoop, h, ih]

theorem isContainedLoop_inclusion_iff (lower : Char → Char) (item : String) (list : List String) :
    isContainedLoop lower item false list = true ↔
      ∃ rule ∈ list, item.data <:+: (strings_ToLower lower rule).data := by
  induction list with
  | nil => simp [isContainedLoop]
  | cons s rest ih =>
    by_cases h : strings_Contains (strings_ToLower lower s) item = true
    · have h2 := (strings_Contains_iff _ _).1 h
      simp [isContainedLoop, h, h2]
    · have h2 : ¬ item.data <:+: (strings_ToLower lower s).data :=
        fun hc => h ((strings_Contains_iff _ _).2 hc)
      simp [isContainedLoop, h, h2, ih]

theorem isContained_nil (lower : Char → Char) (item : String) (isExclusion : Bool) :
    isContained lower [] item isExclusion = false := by
  simp [isContained, isContainedLoop]

/-! ## Lemmas on the evaluator -/

theorem localDecision_cases (lower : Char → Char) (dp : DistributorPermissions) (city : City) :
    localDecision lower dp city = "YES" ∨ localDecision lower dp city = "NO" := by
  unfold localDecision
  split
  · exact Or.inr rfl
  · split
    · exact Or.inl rfl
    · exact Or.inr rfl

theorem localDecision_eq_yes_iff (lower : Char → Char) (dp : DistributorPermissions)
    (city : City) :
    localDecision lower dp city = "YES" ↔
      excludeMatches lower dp city = false ∧ includeMatches lower dp city = true := by
  unfold localDecision
  by_cases he : excludeMatches lower dp city = true
  · simp [he]
  · by_cases hi : includeMatches lower dp city = true
    · simp [he, hi]
    · simp [he, hi]

theorem hasPermissions_root (lower : Char → Char) (mem : Heap) (fuel : Nat) (dp : Ptr)
    (city : City) (hp : (mem dp).Parent = none) :
    hasPermissions lower mem (fuel + 1) dp city = some (localDecision lower (mem dp) city) := by
  simp [hasPermissions, hp]

theorem hasPermissions_child (lower : Char → Char) (mem : Heap) (fuel : Nat) (dp parent : Ptr)
    (city : City) (hp : (mem dp).Parent = some parent) :
    hasPermissions lower mem (fuel + 1) dp city =
      (hasPermissions lower mem fuel parent city).map
        (fun r => if r = "NO" then "NO" else localDecision lower (mem dp) city) := by
  simp only [hasPermissions, hp]
  cases hasPermissions lower mem fuel parent city with
  | none => rfl
  | some r => by_cases h : r = "NO" <;> simp [h]

theorem hasPermissions_succ (lower : Char → Char) (mem : Heap) (city : City) :
    ∀ (fuel : Nat) (dp : Ptr) (r : String),
      hasPermissions lower mem fuel dp city = some r →
      hasPermissions lower mem (fuel + 1) dp city = some r := by
  intro fuel
  induction fuel with
  | zero => intro dp r h; simp [hasPermissions] at h
  | succ fuel ih =>
    intro dp r h
    cases hp : (mem dp).Parent with
    | none =>
      rw [hasPermissions_root lower mem fuel dp city hp] at h
      rw [hasPermissions_root lower mem (fuel + 1) dp city hp]
      exact h
    | some parent =>
      rw [hasPermissions_child lower mem fuel dp parent city hp] at h
      rw [hasPermissions_child lower mem (fuel + 1) dp parent city hp]
      cases hr : hasPermissions lower mem fuel parent city with
      | none => simp [hr] at h
      | some r0 =>
        rw [ih parent r0 hr]
        rw [hr] at h
        exact h

theorem hasPermissions_add (lower : Char → Char) (mem : Heap) (city : City) (fuel : Nat)
    (dp : Ptr) (r : String) (h : hasPermissions lower mem fuel dp city = some r) (extra : Nat) :
    hasPermissions lower mem (fuel + extra) dp city = some r := by
  induction extra with
  | zero => exact h
  | succ extra ih => exact hasPermissions_succ lower mem city (fuel + extra) dp r ih

theorem hasPermissions_mono (lower : Char → Char) (mem : Heap) (city : City) (fuel fuel2 : Nat)
    (dp : Ptr) (r : String) (h : hasPermissions lower mem fuel dp city = some r)
    (hle : fuel ≤ fuel2) :
    hasPermissions lower mem fuel2 dp city = some r := by
  obtain ⟨extra, rfl⟩ := Nat.exists_eq_add_of_le hle
  exact hasPermissions_add lower mem city fuel dp r h extra

/-- The returned value does not depend on the amount of fuel. -/
theorem Returns_unique (lower : Char → Char) (mem : Heap) (dp : Ptr) (city : City)
    (r1 r2 : String) (h1 : Returns lower mem dp city r1) (h2 : Returns lower mem dp city r2) :
    r1 = r2 := by
  obtain ⟨f1, h1⟩ := h1
  obtain ⟨f2, h2⟩ := h2
  have e1 := hasPermissions_mono lower mem city f1 (max f1 f2) dp r1 h1 (le_max_left _ _)
  have e2 := hasPermissions_mono lower mem city f2 (max f1 f2) dp r2 h2 (le_max_right _ _)
  rw [e1] at e2
  exact Option.some.inj e2

theorem Returns_root (lower : Char → Char) (mem : Heap) (dp : Ptr) (city : City)
    (hp : (mem dp).Parent = none) :
    Returns lower mem dp city (localDecision lower (mem dp) city) :=
  ⟨1, hasPermissions_root lower mem 0 dp city hp⟩

theorem Returns_child (lower : Char → Char) (mem : Heap) (dp parent : Ptr) (city : City)
    (hp : (mem dp).Parent = some parent) (r : String) (h : Returns lower mem parent city r) :
    Returns lower mem dp city (if r = "NO" then "NO" else localDecision lower (mem dp) city) := by
  obtain ⟨fuel, h⟩ := h
  exact ⟨fuel + 1, by rw [hasPermissions_child lower mem fuel dp parent city hp, h]; rfl⟩

theorem Returns_cases (lower : Char → Char) (mem : Heap) (city : City) :
    ∀ (fuel : Nat) (dp : Ptr) (r : String),
      hasPermissions lower mem fuel dp city = some r → r = "YES" ∨ r = "NO" := by
  intro fuel
  induction fuel with
  | zero => intro dp r h; simp [hasPermissions] at h
  | succ fuel ih =>
    intro dp r h
    cases hp : (mem dp).Parent with
    | none =>
      rw [hasPermissions_root lower mem fuel dp city hp] at h
      rw [← Option.some.inj h]
      exact localDecision_cases lower (mem dp) city
    | some parent =>
      rw [hasPermissions_child lower mem fuel dp parent city hp] at h
      cases hr : hasPermissions lower mem fuel parent city with
      | none => simp [hr] at h
      | some r0 =>
        rw [hr] at h
        have h2 : (if r0 = "NO" then "NO" else localDecision lower (mem dp) city) = r :=
          Option.some.inj h
        by_cases hno : r0 = "NO"
        · rw [if_pos hno] at h2; exact Or.inr h2.symm
        · rw [if_neg hno] at h2
          rw [← h2]
          exact localDecision_cases lower (mem dp) city

/-- A finite parent chain makes the evaluation terminate. -/
theorem Returns_of_chainEnds (lower : Char → Char) (mem : Heap) (city : City) :
    ∀ (n : Nat) (dp : Ptr), chainEnds mem n dp = true →
      ∃ r, hasPermissions lower mem (n + 1) dp city = some r := by
  intro n
  induction n with
  | zero =>
    intro dp h
    have hp : (mem dp).Parent = none := by simpa [chainEnds] using h
    exact ⟨_, hasPermissions_root lower mem 0 dp city hp⟩
  | succ n ih =>
    intro dp h
    cases hp : (mem dp).Parent with
    | none => exact ⟨_, hasPermissions_root lower mem (n + 1) dp city hp⟩
    | some parent =>
      have h2 : chainEnds mem n parent = true := by simpa [chainEnds, hp] using h
      obtain ⟨r, hr⟩ := ih parent h2
      exact ⟨_, by rw [hasPermissions_child lower mem (n + 1) dp parent city hp, hr]; rfl⟩

theorem isContained_exclusion_iff (lower : Char → Char) (list : List String) (token : String) :
    isContained lower list token true = true ↔
      ∃ rule ∈ list, strings_ToLower lower rule = strings_ToLower lower token := by
  simp only [isContained, isContainedLoop_exclusion_iff]

theorem isContained_inclusion_iff (lower : Char → Char) (list : List String) (token : String) :
    isContained lower list token false = true ↔
      ∃ rule ∈ list,
        (strings_ToLower lower token).data <:+: (strings_ToLower lower rule).data := by
  simp only [isContained, isContainedLoop_inclusion_iff]

theorem localDecision_eq_yes_iff_localTest (lower : Char → Char) (dp : DistributorPermissions)
    (city : City) : localDecision lower dp city = "YES" ↔ LocalTest lower dp city := by
  rw [localDecision_eq_yes_iff]
  simp only [excludeMatches, includeMatches, LocalTest, Bool.or_eq_false_iff, Bool.or_eq_true,
    and_assoc, or_assoc]

theorem localDecision_eq_no_of_not_localTest (lower : Char → Char) (dp : DistributorPermissions)
    (city : City) (h : ¬ LocalTest lower dp city) : localDecision lower dp city = "NO" := by
  rcases localDecision_cases lower dp city with hy | hn
  · exact absurd ((localDecision_eq_yes_iff_localTest lower dp city).1 hy) h
  · exact hn

/-- When the own lists deny, every returned value is "NO". -/
theorem hasPermissions_eq_no_of_local (lower : Char → Char) (mem : Heap) (city : City)
    (fuel : Nat) (dp : Ptr) (r : String) (hloc : localDecision lower (mem dp) city = "NO")
    (h : hasPermissions lower mem fuel dp city = some r) : r = "NO" := by
  cases fuel with
  | zero => simp [hasPermissions] at h
  | succ fuel =>
    cases hp : (mem dp).Parent with
    | none =>
      rw [hasPermissions_root lower mem fuel dp city hp, hloc] at h
      exact (Option.some.inj h).symm
    | some parent =>
      rw [hasPermissions_child lower mem fuel dp parent city hp] at h
      cases hr : hasPermissions lower mem fuel parent city with
      | none => simp [hr] at h
      | some r0 =>
        rw [hr, hloc] at h
        have h2 : (if r0 = "NO" then "NO" else "NO") = r := Option.some.inj h
        rw [ite_self] at h2
        exact h2.symm

theorem Returns_no_of_local (lower : Char → Char) (mem : Heap) (city : City) (dp : Ptr)
    (hfin : FiniteChain mem dp) (hloc : localDecision lower (mem dp) city = "NO") :
    Returns lower mem dp city "NO" := by
  obtain ⟨n, hn⟩ := hfin
  obtain ⟨r, hr⟩ := Returns_of_chainEnds lower mem city n dp hn
  have : r = "NO" := hasPermissions_eq_no_of_local lower mem city (n + 1) dp r hloc hr
  exact ⟨n + 1, this ▸ hr⟩

/-! ## The claims -/

/-- C1 (ancestor veto): if the rule set at `b` has the rule set at `a` as its
`Parent` and `hasPermissions` on `a` returns "NO" for a city, then
`hasPermissions` on `b` returns "NO" for that city, whatever the include and
exclude lists of `b` are. -/
theorem ancestor_veto (lower : Char → Char) (mem : Heap) (a b : Ptr) (city : City)
    (hparent : (mem b).Parent = some a) (hA : Returns lower mem a city "NO") :
    Returns lower mem b city "NO" := by
  have h := Returns_child lower mem b a city hparent "NO" hA
  rwa [if_pos rfl] at h

/-- Witness of C1: in `vetoHeap` the parent denies Paris, the child's include
list matches Paris, and the child is denied. -/
theorem ancestor_veto_witness :
    (vetoHeap 1).Parent = some 0 ∧ Returns Char.toLower vetoHeap 0 paris "NO" ∧
      LocalTest Char.toLower (vetoHeap 1) paris ∧
      Returns Char.toLower vetoHeap 1 paris "NO" :=
  ⟨rfl, ⟨1, by decide⟩, by decide,
    ancestor_veto Char.toLower vetoHeap 0 1 paris rfl ⟨1, by decide⟩⟩

/-- C2 (exclusion precedence): for every rule set (with or without a parent),
if some entry of its own `ExcludeRegion` equals the city's Country, Province or
Name after lower-casing, then "NO" is the only value `hasPermissions` can
return, whatever `IncludeRegion` contains, and it does return "NO" when the
parent chain is finite. -/
theorem exclusion_precedence (lower : Char → Char) (mem : Heap) (dp : Ptr) (city : City)
    (entry : String) (hmem : entry ∈ (mem dp).ExcludeRegion)
    (heq : strings_ToLower lower entry = strings_ToLower lower city.Country ∨
      strings_ToLower lower entry = strings_ToLower lower city.Province ∨
      strings_ToLower lower entry = strings_ToLower lower city.Name) :
    (∀ fuel r, hasPermissions lower mem fuel dp city = some r → r = "NO") ∧
      (FiniteChain mem dp → Returns lower mem dp city "NO") := by
  have hex : excludeMatches lower (mem dp) city = true := by
    simp only [excludeMatches, Bool.or_eq_true]
    rcases heq with h | h | h
    · exact Or.inl (Or.inl ((isContained_exclusion_iff lower _ _).2 ⟨entry, hmem, h⟩))
    · exact Or.inl (Or.inr ((isContained_exclusion_iff lower _ _).2 ⟨entry, hmem, h⟩))
    · exact Or.inr ((isContained_exclusion_iff lower _ _).2 ⟨entry, hmem, h⟩)
  have hloc : localDecision lower (mem dp) city = "NO" := by simp [localDecision, hex]
  exact ⟨fun fuel r h => hasPermissions_eq_no_of_local lower mem city fuel dp r hloc h,
    fun hfin => Returns_no_of_local lower mem city dp hfin hloc⟩

/-- Witness of C2: the rule set at address 2 of `chainHeap` excludes "PARIS",
its include list matches the province of Paris, and it is denied. -/
theorem exclusion_precedence_witness :
    "PARIS" ∈ (chainHeap 2).ExcludeRegion ∧
      isContained Char.toLower (chainHeap 2).IncludeRegion paris.Province false = true ∧
      Returns Char.toLower chainHeap 2 paris "NO" :=
  ⟨by decide, by decide,
    (exclusion_precedence Char.toLower chainHeap 2 paris "PARIS"
      (by decide) (Or.inr (Or.inr (by decide)))).2 ⟨2, by decide⟩⟩

/-- C3: for a rule set without parent, `hasPermissions` returns "YES" exactly
when no attribute of the city is matched by `ExcludeRegion` in exclusion mode
and at least one is matched by `IncludeRegion` in inclusion mode; in every
other case it returns "NO". -/
theorem no_parent_decision (lower : Char → Char) (mem : Heap) (dp : Ptr) (city : City)
    (hroot : (mem dp).Parent = none) :
    (Returns lower mem dp city "YES" ↔ LocalTest lower (mem dp) city) ∧
      (¬ LocalTest lower (mem dp) city → Returns lower mem dp city "NO") := by
  have hret := Returns_root lower mem dp city hroot
  refine ⟨⟨fun h => ?_, fun h => ?_⟩, fun h => ?_⟩
  · exact (localDecision_eq_yes_iff_localTest lower (mem dp) city).1
      (Returns_unique lower mem dp city _ _ hret h)
  · rwa [(localDecision_eq_yes_iff_localTest lower (mem dp) city).2 h] at hret
  · rwa [localDecision_eq_no_of_not_localTest lower (mem dp) city h] at hret

/-- Witness of C3: the root of `chainHeap` is granted Paris. -/
theorem no_parent_decision_witness :
    (chainHeap 0).Parent = none ∧ Returns Char.toLower chainHeap 0 paris "YES" :=
  ⟨rfl, (no_parent_decision Char.toLower chainHeap 0 paris rfl).1.2 (by decide)⟩

/-- C4 (independent pass-through): if the rule set at `b` has the rule set at
`a` as its `Parent` and `hasPermissions` on `a` returns "YES", then
`hasPermissions` on `b` returns "YES" exactly when the own lists of `b` pass
the local test, and returns "NO" otherwise; the lists of `a` do not occur. -/
theorem pass_through (lower : Char → Char) (mem : Heap) (a b : Ptr) (city : City)
    (hparent : (mem b).Parent = some a) (hA : Returns lower mem a city "YES") :
    (Returns lower mem b city "YES" ↔ LocalTest lower (mem b) city) ∧
      (¬ LocalTest lower (mem b) city → Returns lower mem b city "NO") := by
  have hret := Returns_child lower mem b a city hparent "YES" hA
  rw [if_neg (by decide)] at hret
  refine ⟨⟨fun h => ?_, fun h => ?_⟩, fun h => ?_⟩
  · exact (localDecision_eq_yes_iff_localTest lower (mem b) city).1
      (Returns_unique lower mem b city _ _ hret h)
  · rwa [(localDecision_eq_yes_iff_localTest lower (mem b) city).2 h] at hret
  · rwa [localDecision_eq_no_of_not_localTest lower (mem b) city h] at hret

/-- Witness of C4: in `chainHeap` the root grants Paris, address 1 passes its
own test and is granted, address 2 (parent 1, granted) fails its own test and
is denied. -/
theorem pass_through_witness :
    Returns Char.toLower chainHeap 0 paris "YES" ∧
      Returns Char.toLower chainHeap 1 paris "YES" ∧
      Returns Char.toLower chainHeap 2 paris "NO" :=
  ⟨⟨1, by decide⟩,
    (pass_through Char.toLower chainHeap 0 1 paris rfl ⟨1, by decide⟩).1.2 (by decide),
    (pass_through Char.toLower chainHeap 1 2 paris rfl ⟨2, by decide⟩).2 (by decide)⟩

theorem strings_ToLower_ne_of_length (lower : Char → Char) (s t : String)
    (h : s.length ≠ t.length) : strings_ToLower lower s ≠ strings_ToLower lower t := by
  intro heq
  apply h
  rw [← strings_ToLower_length lower s, ← strings_ToLower_length lower t, heq]

theorem length_ne_of_infix_of_ne (s t : String) (hinf : s.data <:+: t.data) (hne : s ≠ t) :
    s.length ≠ t.length := by
  intro hlen
  apply hne
  have : s.data = t.data := hinf.eq_of_length hlen
  exact String.ext this

/-- C5 (exclusion matching is exact): `isContained list token true` is true
exactly when some rule of the list has the same lower-cased form as the token;
a single rule that is a proper substring or a proper superstring of the token
does not match, and the exclude rule "States" does not match the country
"United States". -/
theorem exclusion_exact (lower : Char → Char) (list : List String) (token : String) :
    (isContained lower list token true = true ↔
        ∃ rule ∈ list, strings_ToLower lower rule = strings_ToLower lower token) ∧
      (∀ rule : String, (rule.data <:+: token.data ∨ token.data <:+: rule.data) →
        rule ≠ token → isContained lower [rule] token true = false) ∧
      isContained lower ["States"] "United States" true = false := by
  refine ⟨isContained_exclusion_iff lower list token, ?_, ?_⟩
  · intro rule hsub hne
    have hlen : rule.length ≠ token.length := by
      rcases hsub with h | h
      · exact length_ne_of_infix_of_ne rule token h hne
      · exact fun e => length_ne_of_infix_of_ne token rule h (Ne.symm hne) e.symm
    rw [Bool.eq_false_iff]
    intro hc
    obtain ⟨r, hr, he⟩ := (isContained_exclusion_iff lower [rule] token).1 hc
    rw [List.mem_singleton] at hr
    subst hr
    exact strings_ToLower_ne_of_length lower r token hlen he
  · rw [Bool.eq_false_iff]
    intro hc
    obtain ⟨r, hr, he⟩ := (isContained_exclusion_iff lower ["States"] "United States").1 hc
    rw [List.mem_singleton] at hr
    subst hr
    exact strings_ToLower_ne_of_length lower "States" "United States" (by decide) he

/-- Witness of C5: the exclude rule "united STATES" matches the country
"United States", while the rule "United", a proper substring, does not. -/
theorem exclusion_exact_witness :
    isContained Char.toLower ["France", "united STATES"] "United States" true = true ∧
      isContained Char.toLower ["United"] "United States" true = false :=
  ⟨(exclusion_exact Char.toLower ["France", "united STATES"] "United States").1.2
      ⟨"united STATES", by decide, by decide⟩,
    (exclusion_exact Char.toLower [] "United States").2.1 "United"
      (Or.inl ⟨[], " States".data, rfl⟩) (by decide)⟩

/-- C6 (inclusion matching is by substring): `isContained list token false`
is true exactly when the lower-cased form of some rule of the list has the
lower-cased token as a contiguous substring. -/
theorem inclusion_substring (lower : Char → Char) (list : List String) (token : String) :
    isContained lower list token false = true ↔
      ∃ rule ∈ list,
        (strings_ToLower lower token).data <:+: (strings_ToLower lower rule).data :=
  isContained_inclusion_iff lower list token

theorem isContained_states_unitedStates (lower : Char → Char) :
    isContained lower ["States"] "United States" false = false := by
  rw [Bool.eq_false_iff]
  intro hc
  obtain ⟨r, hr, hinf⟩ := (isContained_inclusion_iff lower ["States"] "United States").1 hc
  rw [List.mem_singleton] at hr
  subst hr
  have hle := hinf.length_le
  simp [strings_ToLower] at hle

theorem isContained_singleton_inclusion (lower : Char → Char) (rule token : String) :
    isContained lower [rule] token false = true ↔
      (strings_ToLower lower token).data <:+: (strings_ToLower lower rule).data := by
  rw [isContained_inclusion_iff]
  simp

/-- C7, as stated, fails: the include rule "States" does not match the country
"United States", and a parentless rule set with `IncludeRegion` ["States"] and
an empty `ExcludeRegion` is denied the city New York of the country
"United States". -/
theorem include_states_counterexample :
    isContained Char.toLower ["States"] "United States" false = false ∧
      (statesHeap 0).Parent = none ∧ (statesHeap 0).IncludeRegion = ["States"] ∧
      (statesHeap 0).ExcludeRegion = [] ∧ newYork.Country = "United States" ∧
      hasPermissions Char.toLower statesHeap 1 0 newYork = some "NO" ∧
      ¬ Returns Char.toLower statesHeap 0 newYork "YES" :=
  ⟨by decide, rfl, rfl, rfl, rfl, by decide, fun h =>
    absurd (Returns_unique Char.toLower statesHeap 0 newYork "YES" "NO" h ⟨1, by decide⟩)
      (by decide)⟩

/-- C7, amended: the include rule "States" does not match the country
"United States" (the rule has to contain the token), whereas the include rule
"United States" matches the token "States"; a parentless rule set with
`IncludeRegion` ["States"] and an empty `ExcludeRegion` returns "YES" for a
city whose Country is "United States" exactly when the lower-cased Province or
Name of the city is a substring of the lower-cased rule "States", and "NO"
otherwise. -/
theorem include_states_amended (lower : Char → Char) (mem : Heap) (dp : Ptr) (city : City)
    (hroot : (mem dp).Parent = none) (hinc : (mem dp).IncludeRegion = ["States"])
    (hexc : (mem dp).ExcludeRegion = []) (hcountry : city.Country = "United States") :
    isContained lower ["States"] "United States" false = false ∧
      isContained lower ["United States"] "States" false = true ∧
      (Returns lower mem dp city "YES" ↔
        ((strings_ToLower lower city.Province).data <:+: (strings_ToLower lower "States").data ∨
          (strings_ToLower lower city.Name).data <:+: (strings_ToLower lower "States").data)) ∧
      (¬ ((strings_ToLower lower city.Province).data <:+: (strings_ToLower lower "States").data ∨
          (strings_ToLower lower city.Name).data <:+: (strings_ToLower lower "States").data) →
        Returns lower mem dp city "NO") := by
  have hlt : LocalTest lower (mem dp) city ↔
      ((strings_ToLower lower city.Province).data <:+: (strings_ToLower lower "States").data ∨
        (strings_ToLower lower city.Name).data <:+: (strings_ToLower lower "States").data) := by
    simp only [LocalTest, hinc, hexc, hcountry, isContained_nil, and_self, true_and,
      isContained_states_unitedStates, Bool.false_eq_true, false_or,
      isContained_singleton_inclusion]
  have hret := Returns_root lower mem dp city hroot
  refine ⟨isContained_states_unitedStates lower, ?_, ⟨fun h => ?_, fun h => ?_⟩, fun h => ?_⟩
  · rw [isContained_singleton_inclusion]
    exact List.IsInfix.map lower ⟨"United ".data, [], rfl⟩
  · exact hlt.1 ((localDecision_eq_yes_iff_localTest lower (mem dp) city).1
      (Returns_unique lower mem dp city _ _ hret h))
  · rwa [(localDecision_eq_yes_iff_localTest lower (mem dp) city).2 (hlt.2 h)] at hret
  · rwa [localDecision_eq_no_of_not_localTest lower (mem dp) city (fun c => h (hlt.1 c))]
      at hret

/-- Witness of the amended C7: the city Tate of the country "United States" is
granted, because "tate" occurs inside "states". -/
theorem include_states_amended_witness :
    tate.Country = "United States" ∧ Returns Char.toLower statesHeap 0 tate "YES" :=
  ⟨rfl, (include_states_amended Char.toLower statesHeap 0 tate rfl rfl rfl rfl).2.2.1.2
    (Or.inr ⟨"s".data, "s".data, by decide⟩)⟩

/-- C8 (a child is never granted what its ancestor chain forbids): if the rule
set at `a` is the ancestor of `dp` that lies `k` links up the parent chain, for
any depth `k`, and `hasPermissions` on `a` returns "NO" for a city, then
`hasPermissions` on `dp` returns "NO" for that city.  (That the chain of `dp`
is finite follows from the ancestor's call returning.) -/
theorem chain_veto (lower : Char → Char) (mem : Heap) (city : City) (k : Nat) (dp a : Ptr)
    (hanc : ancestor mem k dp = some a) (hA : Returns lower mem a city "NO") :
    Returns lower mem dp city "NO" := by
  induction k generalizing dp with
  | zero =>
    have : dp = a := by simpa [ancestor] using hanc
    rw [this]
    exact hA
  | succ k ih =>
    cases hp : (mem dp).Parent with
    | none => simp [ancestor, hp] at hanc
    | some parent =>
      have h2 : ancestor mem k parent = some a := by simpa [ancestor, hp] using hanc
      have h3 := Returns_child lower mem dp parent city hp "NO" (ih parent h2)
      rwa [if_pos rfl] at h3

/-- Witness of C8: the root of `chainHeap`, two links above address 2, denies
Berlin, hence address 2 is denied Berlin. -/
theorem chain_veto_witness :
    ancestor chainHeap 2 2 = some 0 ∧ Returns Char.toLower chainHeap 0 berlin "NO" ∧
      Returns Char.toLower chainHeap 2 berlin "NO" :=
  ⟨by decide, ⟨1, by decide⟩,
    chain_veto Char.toLower chainHeap berlin 2 2 0 (by decide) ⟨1, by decide⟩⟩

/-- C9 (default deny): for every rule set (with or without a parent) whose
`IncludeRegion` and `ExcludeRegion` are both empty and for every city, "NO" is
the only value `hasPermissions` can return, and it does return "NO" when the
parent chain is finite. -/
theorem default_deny (lower : Char → Char) (mem : Heap) (dp : Ptr) (city : City)
    (hinc : (mem dp).IncludeRegion = []) (hexc : (mem dp).ExcludeRegion = []) :
    (∀ fuel r, hasPermissions lower mem fuel dp city = some r → r = "NO") ∧
      (FiniteChain mem dp → Returns lower mem dp city "NO") := by
  have hloc : localDecision lower (mem dp) city = "NO" := by
    simp [localDecision, excludeMatches, includeMatches, hinc, hexc, isContained_nil]
  exact ⟨fun fuel r h => hasPermissions_eq_no_of_local lower mem city fuel dp r hloc h,
    fun hfin => Returns_no_of_local lower mem city dp hfin hloc⟩

/-- Witness of C9: the empty root at address 0 and the empty child at address 2
(whose parent grants Paris) are both denied Paris. -/
theorem default_deny_witness :
    Returns Char.toLower emptyHeap 1 paris "YES" ∧
      Returns Char.toLower emptyHeap 0 paris "NO" ∧
      Returns Char.toLower emptyHeap 2 paris "NO" :=
  ⟨⟨1, by decide⟩,
    (default_deny Char.toLower emptyHeap 0 paris rfl rfl).2 ⟨0, by decide⟩,
    (default_deny Char.toLower emptyHeap 2 paris rfl rfl).2 ⟨1, by decide⟩⟩

/-- C10 (end-to-end example): for the city Paris / Ile-de-France / France,
distributor A (include ["France"], no exclusions, no parent) gets "YES" and
distributor B (parent A, include ["Paris"], exclude ["Ile-de-France"]) gets
"NO", whatever the case table is; B's include list does match the city. -/
theorem end_to_end_example (lower : Char → Char) :
    Returns lower exampleHeap 0 paris "YES" ∧
      isContained lower (exampleHeap 1).IncludeRegion paris.Name false = true ∧
      Returns lower exampleHeap 1 paris "NO" := by
  have hA : Returns lower exampleHeap 0 paris "YES" := by
    have hret := Returns_root lower exampleHeap 0 paris rfl
    have hy : localDecision lower (exampleHeap 0) paris = "YES" := by
      rw [localDecision_eq_yes_iff_localTest]
      refine ⟨⟨isContained_nil _ _ _, isContained_nil _ _ _, isContained_nil _ _ _⟩, Or.inl ?_⟩
      exact (isContained_singleton_inclusion lower "France" "France").2 (List.infix_refl _)
    rwa [hy] at hret
  refine ⟨hA, ?_, ?_⟩
  · exact (isContained_singleton_inclusion lower "Paris" "Paris").2 (List.infix_refl _)
  · have hret := Returns_child lower exampleHeap 1 0 paris rfl "YES" hA
    rw [if_neg (by decide)] at hret
    have hn : localDecision lower (exampleHeap 1) paris = "NO" := by
      apply localDecision_eq_no_of_not_localTest
      intro hlt
      have hp : isContained lower ["Ile-de-France"] "Ile-de-France" true = true :=
        (isContained_exclusion_iff lower _ _).2 ⟨"Ile-de-France", by simp, rfl⟩
      have := hlt.1.2.1
      change isContained lower ["Ile-de-France"] "Ile-de-France" true = false at this
      rw [hp] at this
      exact Bool.noConfusion this
    rwa [hn] at hret

/-! ## Case folding and the empty rule list -/

theorem isContainedLoop_congr (lower : Char → Char) (item : String) (isExclusion : Bool) :
    ∀ list1 list2 : List String,
      list1.map (strings_ToLower lower) = list2.map (strings_ToLower lower) →
      isContainedLoop lower item isExclusion list1 =
        isContainedLoop lower item isExclusion list2 := by
  intro list1
  induction list1 with
  | nil =>
    intro list2 h
    cases list2 with
    | nil => rfl
    | cons t rest => simp at h
  | cons s rest ih =>
    intro list2 h
    cases list2 with
    | nil => simp at h
    | cons t rest2 =>
      simp only [List.map_cons, List.cons.injEq] at h
      simp only [isContainedLoop, h.1, ih rest2 h.2]

theorem strings_ToLower_of_ascii (lower : Char → Char)
    (hascii : ∀ c : Char, c.toNat < 128 → lower c = c.toLower) (s : String)
    (hs : ∀ c ∈ s.data, c.toNat < 128) :
    strings_ToLower lower s = strings_ToLower Char.toLower s := by
  unfold strings_ToLower
  congr 1
  exact List.map_congr_left (fun c hc => hascii c (hs c hc))

/-- C11 (matching is case-insensitive): two tokens with equal lower-cased
forms and two rule lists with element-wise equal lower-cased forms give the
same result of `isContained`, in both modes; and when the case table agrees
with ASCII lower-casing on ASCII, the include rule "united states" matches the
country "United States". -/
theorem case_insensitive (lower : Char → Char) (list1 list2 : List String)
    (token1 token2 : String) (isExclusion : Bool)
    (hlist : list1.map (strings_ToLower lower) = list2.map (strings_ToLower lower))
    (htoken : strings_ToLower lower token1 = strings_ToLower lower token2) :
    isContained lower list1 token1 isExclusion = isContained lower list2 token2 isExclusion ∧
      ((∀ c : Char, c.toNat < 128 → lower c = c.toLower) →
        isContained lower ["united states"] "United States" false = true) := by
  refine ⟨?_, fun hascii => ?_⟩
  · simp only [isContained, htoken]
    exact isContainedLoop_congr lower _ isExclusion list1 list2 hlist
  · have h1 : strings_ToLower lower "United States" = strings_ToLower lower "united states" := by
      rw [strings_ToLower_of_ascii lower hascii "United States" (by decide),
        strings_ToLower_of_ascii lower hascii "united states" (by decide)]
      decide
    rw [isContained_inclusion_iff]
    exact ⟨"united states", by simp, by rw [h1]⟩

/-- Witness of C11: the rule list ["FRANCE", "United STATES"] and the token
"united states" give the same result as ["france", "united states"] and
"United States", in inclusion mode, and the result is a match. -/
theorem case_insensitive_witness :
    isContained Char.toLower ["FRANCE", "United STATES"] "united states" false =
        isContained Char.toLower ["france", "united states"] "United States" false ∧
      isContained Char.toLower ["united states"] "United States" false = true :=
  ⟨(case_insensitive Char.toLower ["FRANCE", "United STATES"] ["france", "united states"]
      "united states" "United States" false (by decide) (by decide)).1,
    (case_insensitive Char.toLower [] [] "" "" false rfl rfl).2 (fun _ _ => rfl)⟩

/-- C12: on an empty rule list `isContained` returns false, for every token
and in both modes. -/
theorem empty_list_false (lower : Char → Char) (token : String) (isExclusion : Bool) :
    isContained lower [] token isExclusion = false :=
  isContained_nil lower token isExclusion

/-! ## Termination and cycles -/

theorem chainEnds_of_hasPermissions (lower : Char → Char) (mem : Heap) (city : City) :
    ∀ (n : Nat) (dp : Ptr) (r : String),
      hasPermissions lower mem (n + 1) dp city = some r → chainEnds mem n dp = true := by
  intro n
  induction n with
  | zero =>
    intro dp r h
    cases hp : (mem dp).Parent with
    | none => simp [chainEnds, hp]
    | some parent =>
      rw [hasPermissions_child lower mem 0 dp parent city hp] at h
      simp [hasPermissions] at h
  | succ n ih =>
    intro dp r h
    cases hp : (mem dp).Parent with
    | none => simp [chainEnds, hp]
    | some parent =>
      rw [hasPermissions_child lower mem (n + 1) dp parent city hp] at h
      cases hr : hasPermissions lower mem (n + 1) parent city with
      | none => simp [hr] at h
      | some r0 => simpa [chainEnds, hp] using ih parent r0 hr

theorem ancestor_none_of_chainEnds (mem : Heap) :
    ∀ (n : Nat) (dp : Ptr), chainEnds mem n dp = true → ancestor mem (n + 1) dp = none := by
  intro n
  induction n with
  | zero =>
    intro dp h
    have hp : (mem dp).Parent = none := by simpa [chainEnds] using h
    simp [ancestor, hp]
  | succ n ih =>
    intro dp h
    cases hp : (mem dp).Parent with
    | none => simp [ancestor, hp]
    | some parent =>
      have h2 : chainEnds mem n parent = true := by simpa [chainEnds, hp] using h
      have h3 := ih parent h2
      rw [ancestor, hp]
      exact h3

theorem ancestor_add (mem : Heap) :
    ∀ (k m : Nat) (dp : Ptr),
      ancestor mem (k + m) dp = (ancestor mem k dp).bind (ancestor mem m) := by
  intro k
  induction k with
  | zero => intro m dp; simp [ancestor]
  | succ k ih =>
    intro m dp
    rw [Nat.add_right_comm k 1 m]
    cases hp : (mem dp).Parent with
    | none => simp [ancestor, hp]
    | some parent => simp [ancestor, hp, ih m parent]

theorem ancestor_ne_none_of_le (mem : Heap) (n k : Nat) (dp a : Ptr) (hle : n ≤ k)
    (hk : ancestor mem k dp = some a) : ancestor mem n dp ≠ none := by
  intro hn
  obtain ⟨d, rfl⟩ := Nat.exists_eq_add_of_le hle
  rw [ancestor_add, hn] at hk
  simp at hk

theorem ancestor_ne_none_of_loop (mem : Heap) (a : Ptr) (m : Nat) (hm : 0 < m)
    (hloop : ancestor mem m a = some a) : ∀ n, ancestor mem n a ≠ none := by
  intro n
  induction n using Nat.strong_induction_on with
  | _ n ih =>
    by_cases hlt : n ≤ m
    · exact ancestor_ne_none_of_le mem n m a a hlt hloop
    · obtain ⟨d, rfl⟩ := Nat.exists_eq_add_of_le (Nat.le_of_lt (Nat.lt_of_not_le hlt))
      rw [ancestor_add, hloop]
      exact ih d (by omega)

theorem ancestor_ne_none_of_cyclic (mem : Heap) (dp : Ptr) (hcyc : CyclicChain mem dp) :
    ∀ n, ancestor mem n dp ≠ none := by
  obtain ⟨k, a, m, hk, hm, hloop⟩ := hcyc
  intro n
  by_cases hle : n ≤ k
  · exact ancestor_ne_none_of_le mem n k dp a hle hk
  · obtain ⟨d, rfl⟩ := Nat.exists_eq_add_of_le (Nat.le_of_lt (Nat.lt_of_not_le hle))
    rw [ancestor_add, hk]
    exact ancestor_ne_none_of_loop mem a m hm hloop d

/-- C15: for a rule set with a finite (acyclic) parent chain and every city,
`hasPermissions` terminates, the value it returns is "YES" or "NO", and no
other value is returned whatever the amount of fuel. -/
theorem terminates_yes_or_no (lower : Char → Char) (mem : Heap) (dp : Ptr) (city : City)
    (hfin : FiniteChain mem dp) :
    ∃ r, Returns lower mem dp city r ∧ (r = "YES" ∨ r = "NO") ∧
      ∀ fuel r2, hasPermissions lower mem fuel dp city = some r2 → r2 = r := by
  obtain ⟨n, hn⟩ := hfin
  obtain ⟨r, hr⟩ := Returns_of_chainEnds lower mem city n dp hn
  exact ⟨r, ⟨n + 1, hr⟩, Returns_cases lower mem city (n + 1) dp r hr,
    fun fuel r2 h => Returns_unique lower mem dp city r2 r ⟨fuel, h⟩ ⟨n + 1, hr⟩⟩

/-- Witness of C15: address 2 of `chainHeap` has a chain of two links and its
call returns "NO" for Paris. -/
theorem terminates_yes_or_no_witness :
    chainEnds chainHeap 2 2 = true ∧
      ∃ r, Returns Char.toLower chainHeap 2 paris r ∧ (r = "YES" ∨ r = "NO") ∧
        ∀ fuel r2, hasPermissions Char.toLower chainHeap fuel 2 paris = some r2 → r2 = r :=
  ⟨by decide, terminates_yes_or_no Char.toLower chainHeap 2 paris ⟨2, by decide⟩⟩

/-- C16: for a rule set whose parent chain contains a cycle, for every city
and whatever the include and exclude lists are, `hasPermissions` returns no
decision with any amount of fuel. -/
theorem cycle_never_returns (lower : Char → Char) (mem : Heap) (dp : Ptr) (city : City)
    (hcyc : CyclicChain mem dp) :
    ∀ fuel, hasPermissions lower mem fuel dp city = none := by
  intro fuel
  cases fuel with
  | zero => rfl
  | succ n =>
    cases h : hasPermissions lower mem (n + 1) dp city with
    | none => rfl
    | some r =>
      have h1 := chainEnds_of_hasPermissions lower mem city n dp r h
      have h2 := ancestor_none_of_chainEnds mem n dp h1
      exact absurd h2 (ancestor_ne_none_of_cyclic mem dp hcyc (n + 1))

/-- Witness of C16: in `cycleHeap` address 0 is its own ancestor two links up;
its own lists would grant Paris, yet no fuel gives a decision. -/
theorem cycle_never_returns_witness :
    ancestor cycleHeap 2 0 = some 0 ∧ LocalTest Char.toLower (cycleHeap 0) paris ∧
      ∀ fuel, hasPermissions Char.toLower cycleHeap fuel 0 paris = none :=
  ⟨by decide, by decide,
    cycle_never_returns Char.toLower cycleHeap 0 paris ⟨0, 0, 2, rfl, by decide, by decide⟩⟩

/-! ## The chain as a whole -/

theorem ancestor_zero_iff (mem : Heap) (dp a : Ptr) : ancestor mem 0 dp = some a ↔ dp = a := by
  simp [ancestor]

theorem ancestor_succ_of_parent (mem : Heap) (k : Nat) (dp parent : Ptr)
    (hp : (mem dp).Parent = some parent) :
    ancestor mem (k + 1) dp = ancestor mem k parent := by
  simp [ancestor, hp]

theorem ancestor_succ_of_root (mem : Heap) (k : Nat) (dp : Ptr)
    (hp : (mem dp).Parent = none) : ancestor mem (k + 1) dp = none := by
  simp [ancestor, hp]

/-- What a returned "YES" of a rule set with a parent amounts to. -/
theorem hasPermissions_child_yes_iff (lower : Char → Char) (mem : Heap) (fuel : Nat)
    (dp parent : Ptr) (city : City) (hp : (mem dp).Parent = some parent) :
    hasPermissions lower mem (fuel + 1) dp city = some "YES" ↔
      hasPermissions lower mem fuel parent city = some "YES" ∧
        localDecision lower (mem dp) city = "YES" := by
  rw [hasPermissions_child lower mem fuel dp parent city hp]
  cases hr : hasPermissions lower mem fuel parent city with
  | none => simp
  | some r0 =>
    rcases Returns_cases lower mem city fuel parent r0 hr with h | h
    · subst h
      simp
    · subst h
      simp

theorem Returns_yes_iff_of_chainEnds (lower : Char → Char) (mem : Heap) (city : City) :
    ∀ (n : Nat) (dp : Ptr), chainEnds mem n dp = true →
      (Returns lower mem dp city "YES" ↔
        ∀ k a, ancestor mem k dp = some a → LocalTest lower (mem a) city) := by
  intro n
  induction n with
  | zero =>
    intro dp hn
    have hp : (mem dp).Parent = none := by simpa [chainEnds] using hn
    constructor
    · intro h k a hk
      have hy := Returns_unique lower mem dp city _ _ (Returns_root lower mem dp city hp) h
      cases k with
      | zero =>
        rw [ancestor_zero_iff] at hk
        subst hk
        exact (localDecision_eq_yes_iff_localTest lower (mem dp) city).1 hy
      | succ k => simp [ancestor_succ_of_root mem k dp hp] at hk
    · intro h
      have hl := (localDecision_eq_yes_iff_localTest lower (mem dp) city).2 (h 0 dp rfl)
      have hret := Returns_root lower mem dp city hp
      rwa [hl] at hret
  | succ n ih =>
    intro dp hn
    cases hp : (mem dp).Parent with
    | none =>
      constructor
      · intro h k a hk
        have hy := Returns_unique lower mem dp city _ _ (Returns_root lower mem dp city hp) h
        cases k with
        | zero =>
          rw [ancestor_zero_iff] at hk
          subst hk
          exact (localDecision_eq_yes_iff_localTest lower (mem dp) city).1 hy
        | succ k => simp [ancestor_succ_of_root mem k dp hp] at hk
      · intro h
        have hl := (localDecision_eq_yes_iff_localTest lower (mem dp) city).2 (h 0 dp rfl)
        have hret := Returns_root lower mem dp city hp
        rwa [hl] at hret
    | some parent =>
      have hn2 : chainEnds mem n parent = true := by simpa [chainEnds, hp] using hn
      have ihp := ih parent hn2
      constructor
      · intro h k a hk
        obtain ⟨fuel, hf⟩ := h
        cases fuel with
        | zero => simp [hasPermissions] at hf
        | succ fuel =>
          have hboth := (hasPermissions_child_yes_iff lower mem fuel dp parent city hp).1 hf
          cases k with
          | zero =>
            rw [ancestor_zero_iff] at hk
            subst hk
            exact (localDecision_eq_yes_iff_localTest lower (mem dp) city).1 hboth.2
          | succ k =>
            rw [ancestor_succ_of_parent mem k dp parent hp] at hk
            exact ihp.1 ⟨fuel, hboth.1⟩ k a hk
      · intro h
        have hl := (localDecision_eq_yes_iff_localTest lower (mem dp) city).2 (h 0 dp rfl)
        have hpar : Returns lower mem parent city "YES" :=
          ihp.2 (fun k a hk => h (k + 1) a (by rw [ancestor_succ_of_parent mem k dp parent hp]; exact hk))
        obtain ⟨fuel, hf⟩ := hpar
        exact ⟨fuel + 1,
          (hasPermissions_child_yes_iff lower mem fuel dp parent city hp).2 ⟨hf, hl⟩⟩

/-- C17 (the recursion equals a walk of the chain): for a rule set with a
finite parent chain and every city, `hasPermissions` returns "YES" exactly
when every rule set on the chain, from the rule set itself (depth 0) up to the
root, passes its own local test; otherwise it returns "NO". -/
theorem chain_walk (lower : Char → Char) (mem : Heap) (dp : Ptr) (city : City)
    (hfin : FiniteChain mem dp) :
    (Returns lower mem dp city "YES" ↔
        ∀ k a, ancestor mem k dp = some a → LocalTest lower (mem a) city) ∧
      (¬ (∀ k a, ancestor mem k dp = some a → LocalTest lower (mem a) city) →
        Returns lower mem dp city "NO") := by
  obtain ⟨n, hn⟩ := hfin
  have hiff := Returns_yes_iff_of_chainEnds lower mem city n dp hn
  refine ⟨hiff, fun hnot => ?_⟩
  obtain ⟨r, hr⟩ := Returns_of_chainEnds lower mem city n dp hn
  rcases Returns_cases lower mem city (n + 1) dp r hr with h | h
  · subst h
    exact absurd (hiff.1 ⟨n + 1, hr⟩) hnot
  · subst h
    exact ⟨n + 1, hr⟩

/-- Witness of C17: in `chainHeap`, address 1 and its root pass their local
tests for Paris and address 1 is granted; address 2 fails its own test and is
denied. -/
theorem chain_walk_witness :
    Returns Char.toLower chainHeap 1 paris "YES" ∧ Returns Char.toLower chainHeap 2 paris "NO" :=
  ⟨(chain_walk Char.toLower chainHeap 1 paris ⟨1, by decide⟩).1.2 (by
      intro k a hk
      match k, hk with
      | 0, hk => cases hk; decide
      | 1, hk => cases hk; decide
      | k + 2, hk => exact absurd hk (by simp [ancestor, chainHeap])),
    (chain_walk Char.toLower chainHeap 2 paris ⟨2, by decide⟩).2
      (fun hall => absurd (hall 0 2 rfl) (by decide))⟩

/-! ## Empty attributes, added exclusions, irrelevant fields -/

theorem isContained_empty_token (lower : Char → Char) (list : List String) (hne : list ≠ []) :
    isContained lower list "" false = true := by
  cases list with
  | nil => exact absurd rfl hne
  | cons rule rest =>
    rw [isContained_inclusion_iff]
    exact ⟨rule, List.mem_cons_self _ _, ⟨[], (strings_ToLower lower rule).data, by
      simp [strings_ToLower]⟩⟩

theorem isContained_exclusion_eq_false (lower : Char → Char) (list : List String)
    (token : String)
    (h : ∀ rule ∈ list, strings_ToLower lower rule ≠ strings_ToLower lower token) :
    isContained lower list token true = false := by
  rw [Bool.eq_false_iff]
  intro hc
  obtain ⟨rule, hr, he⟩ := (isContained_exclusion_iff lower list token).1 hc
  exact h rule hr he

/-- C18 (an empty city attribute is matched by any include rule): a rule set
without parent and with a non-empty `IncludeRegion` returns "YES" for every
city that has an empty Country, Province or Name, provided that no entry of
`ExcludeRegion` equals one of the three attributes after lower-casing; nothing
is asked of the include rules themselves. -/
theorem empty_attribute_granted (lower : Char → Char) (mem : Heap) (dp : Ptr) (city : City)
    (hroot : (mem dp).Parent = none) (hinc : (mem dp).IncludeRegion ≠ [])
    (hempty : city.Country = "" ∨ city.Province = "" ∨ city.Name = "")
    (hexc : ∀ entry ∈ (mem dp).ExcludeRegion,
      strings_ToLower lower entry ≠ strings_ToLower lower city.Country ∧
      strings_ToLower lower entry ≠ strings_ToLower lower city.Province ∧
      strings_ToLower lower entry ≠ strings_ToLower lower city.Name) :
    Returns lower mem dp city "YES" := by
  have hlt : LocalTest lower (mem dp) city := by
    refine ⟨⟨?_, ?_, ?_⟩, ?_⟩
    · exact isContained_exclusion_eq_false lower _ _ (fun e he => (hexc e he).1)
    · exact isContained_exclusion_eq_false lower _ _ (fun e he => (hexc e he).2.1)
    · exact isContained_exclusion_eq_false lower _ _ (fun e he => (hexc e he).2.2)
    · rcases hempty with h | h | h
      · exact Or.inl (by rw [h]; exact isContained_empty_token lower _ hinc)
      · exact Or.inr (Or.inl (by rw [h]; exact isContained_empty_token lower _ hinc))
      · exact Or.inr (Or.inr (by rw [h]; exact isContained_empty_token lower _ hinc))
  have hret := Returns_root lower mem dp city hroot
  rwa [(localDecision_eq_yes_iff_localTest lower (mem dp) city).2 hlt] at hret

/-- Witness of C18: the root of `vetoHeap` lists only "Germany", the city
`singapore` has an empty Province and no attribute that "germany" contains
apart from it, and the root is granted. -/
theorem empty_attribute_granted_witness :
    isContained Char.toLower (vetoHeap 0).IncludeRegion singapore.Country false = false ∧
      isContained Char.toLower (vetoHeap 0).IncludeRegion singapore.Name false = false ∧
      Returns Char.toLower vetoHeap 0 singapore "YES" :=
  ⟨by decide, by decide,
    empty_attribute_granted Char.toLower vetoHeap 0 singapore rfl (by decide)
      (Or.inr (Or.inl rfl)) (fun entry he => absurd he (List.not_mem_nil entry))⟩

theorem localTest_of_more_excluded (lower : Char → Char) (d d2 : DistributorPermissions)
    (city : City) (hinc : d2.IncludeRegion = d.IncludeRegion)
    (hexc : d.ExcludeRegion ⊆ d2.ExcludeRegion) (h : LocalTest lower d2 city) :
    LocalTest lower d city := by
  have hmono : ∀ token, isContained lower d2.ExcludeRegion token true = false →
      isContained lower d.ExcludeRegion token true = false := by
    intro token h2
    rw [Bool.eq_false_iff] at h2 ⊢
    intro hc
    obtain ⟨rule, hr, he⟩ := (isContained_exclusion_iff lower _ token).1 hc
    exact h2 ((isContained_exclusion_iff lower _ token).2 ⟨rule, hexc hr, he⟩)
  obtain ⟨⟨h1, h2, h3⟩, h4⟩ := h
  rw [hinc] at h4
  exact ⟨⟨hmono _ h1, hmono _ h2, hmono _ h3⟩, h4⟩

/-- C19 (exclusions only restrict): let `mem2` arise from `mem` by adding
entries to the `ExcludeRegion` of the rule set `dp` or of any of its ancestors,
parents and include lists being unchanged along the chain; if `hasPermissions`
returns "YES" in `mem2`, it returns "YES" in `mem`.  (Added entries are
expressed by list inclusion, which covers insertion at any position; the chain
is finite because the call in `mem2` returns.) -/
theorem exclusions_only_restrict (lower : Char → Char) (mem mem2 : Heap) (dp : Ptr)
    (city : City)
    (hrel : ∀ k a, ancestor mem k dp = some a →
      (mem2 a).Parent = (mem a).Parent ∧ (mem2 a).IncludeRegion = (mem a).IncludeRegion ∧
        (mem a).ExcludeRegion ⊆ (mem2 a).ExcludeRegion)
    (h2 : Returns lower mem2 dp city "YES") :
    Returns lower mem dp city "YES" := by
  obtain ⟨fuel, hf⟩ := h2
  refine ⟨fuel, ?_⟩
  induction fuel generalizing dp with
  | zero => simp [hasPermissions] at hf
  | succ fuel ih =>
    obtain ⟨hpar, hinc, hexc⟩ := hrel 0 dp rfl
    cases hp : (mem dp).Parent with
    | none =>
      rw [hp] at hpar
      rw [hasPermissions_root lower mem2 fuel dp city hpar] at hf
      rw [hasPermissions_root lower mem fuel dp city hp]
      have hl := (localDecision_eq_yes_iff_localTest lower (mem2 dp) city).1 (Option.some.inj hf)
      rw [(localDecision_eq_yes_iff_localTest lower (mem dp) city).2
        (localTest_of_more_excluded lower (mem dp) (mem2 dp) city hinc hexc hl)]
    | some parent =>
      rw [hp] at hpar
      have hboth := (hasPermissions_child_yes_iff lower mem2 fuel dp parent city hpar).1 hf
      have hparent := ih parent
        (fun k a hk => hrel (k + 1) a (by
          rw [ancestor_succ_of_parent mem k dp parent hp]; exact hk)) hboth.1
      have hl := (localDecision_eq_yes_iff_localTest lower (mem2 dp) city).1 hboth.2
      exact (hasPermissions_child_yes_iff lower mem fuel dp parent city hp).2
        ⟨hparent, (localDecision_eq_yes_iff_localTest lower (mem dp) city).2
          (localTest_of_more_excluded lower (mem dp) (mem2 dp) city hinc hexc hl)⟩

/-- Witness of C19: `chainHeapMoreExcluded` adds exclusions to `chainHeap` at
addresses 0 and 1; address 1 is granted Paris with the longer lists, hence
with the shorter ones. -/
theorem exclusions_only_restrict_witness :
    Returns Char.toLower chainHeapMoreExcluded 1 paris "YES" ∧
      Returns Char.toLower chainHeap 1 paris "YES" :=
  ⟨⟨2, by decide⟩,
    exclusions_only_restrict Char.toLower chainHeap chainHeapMoreExcluded 1 paris
      (by
        intro k a hk
        match k, hk with
        | 0, hk => cases hk; decide
        | 1, hk => cases hk; decide
        | k + 2, hk => exact absurd hk (by simp [ancestor, chainHeap]))
      ⟨2, by decide⟩⟩

theorem localDecision_congr (lower : Char → Char) (d d2 : DistributorPermissions)
    (city city2 : City) (hinc : d2.IncludeRegion = d.IncludeRegion)
    (hexc : d2.ExcludeRegion = d.ExcludeRegion) (hname : city2.Name = city.Name)
    (hprov : city2.Province = city.Province) (hcountry : city2.Country = city.Country) :
    localDecision lower d2 city2 = localDecision lower d city := by
  simp only [localDecision, excludeMatches, includeMatches, hinc, hexc, hname, hprov, hcountry]

/-- C20 (the decision depends only on Name, Province, Country and on the
lists along the chain): for two cities that agree on Name, Province and
Country (the Code is free) and two heaps whose rule sets along the parent
chain of `dp` agree on Parent, IncludeRegion and ExcludeRegion (the
DistributorName is free), `hasPermissions` gives the same result, with every
amount of fuel. -/
theorem decision_ignores_code_and_names (lower : Char → Char) (mem mem2 : Heap) (dp : Ptr)
    (city city2 : City) (hname : city2.Name = city.Name)
    (hprov : city2.Province = city.Province) (hcountry : city2.Country = city.Country)
    (hrel : ∀ k a, ancestor mem k dp = some a →
      (mem2 a).Parent = (mem a).Parent ∧ (mem2 a).IncludeRegion = (mem a).IncludeRegion ∧
        (mem2 a).ExcludeRegion = (mem a).ExcludeRegion) :
    ∀ fuel, hasPermissions lower mem2 fuel dp city2 = hasPermissions lower mem fuel dp city := by
  intro fuel
  induction fuel generalizing dp with
  | zero => rfl
  | succ fuel ih =>
    obtain ⟨hpar, hinc, hexc⟩ := hrel 0 dp rfl
    have hloc := localDecision_congr lower (mem dp) (mem2 dp) city city2 hinc hexc hname hprov
      hcountry
    cases hp : (mem dp).Parent with
    | none =>
      rw [hp] at hpar
      rw [hasPermissions_root lower mem2 fuel dp city2 hpar,
        hasPermissions_root lower mem fuel dp city hp, hloc]
    | some parent =>
      rw [hp] at hpar
      rw [hasPermissions_child lower mem2 fuel dp parent city2 hpar,
        hasPermissions_child lower mem fuel dp parent city hp, hloc,
        ih parent (fun k a hk => hrel (k + 1) a (by
          rw [ancestor_succ_of_parent mem k dp parent hp]; exact hk))]

/-- Witness of C20: `exampleHeapRenamed` differs from `exampleHeap` in the
distributor names only and `parisOtherCode` from `paris` in the code only; the
decision for address 1 is "NO" in both settings. -/
theorem decision_ignores_code_and_names_witness :
    (exampleHeapRenamed 1).DistributorName ≠ (exampleHeap 1).DistributorName ∧
      parisOtherCode.Code ≠ paris.Code ∧
      hasPermissions Char.toLower exampleHeapRenamed 2 1 parisOtherCode = some "NO" ∧
      hasPermissions Char.toLower exampleHeapRenamed 2 1 parisOtherCode =
        hasPermissions Char.toLower exampleHeap 2 1 paris :=
  ⟨by decide, by decide, by decide,
    decision_ignores_code_and_names Char.toLower exampleHeap exampleHeapRenamed 1 paris
      parisOtherCode rfl rfl rfl
      (by
        intro k a hk
        match k, hk with
        | 0, hk => cases hk; decide
        | 1, hk => cases hk; decide
        | k + 2, hk => exact absurd hk (by simp [ancestor, exampleHeap]))
      2⟩

/-! ## The driver -/

theorem checkPermissionsInner_spec (lower : Char → Char) (mem : Heap) (fuel : Nat)
    (city : City) :
    ∀ (dps : List Ptr) (row : List PermissionRecord),
      checkPermissionsInner lower mem fuel city dps = some row →
      row.length = dps.length ∧
        ∀ (j : Nat) (dp : Ptr), dps[j]? = some dp →
          ∃ r, hasPermissions lower mem fuel dp city = some r ∧
            row[j]? = some ({ DistributorName := (mem dp).DistributorName, Name := city.Name,
                              Province := city.Province, Country := city.Country,
                              Result := r } : PermissionRecord) := by
  intro dps
  induction dps with
  | nil =>
    intro row h
    simp only [checkPermissionsInner, Option.some.injEq] at h
    subst h
    exact ⟨rfl, fun j dp hj => by simp at hj⟩
  | cons d rest ih =>
    intro row h
    simp only [checkPermissionsInner] at h
    cases hr : hasPermissions lower mem fuel d city with
    | none => simp [hr] at h
    | some result =>
      cases ho : checkPermissionsInner lower mem fuel city rest with
      | none => simp [hr, ho] at h
      | some out =>
        simp only [hr, ho, Option.some.injEq] at h
        subst h
        obtain ⟨hlen, hget⟩ := ih out ho
        refine ⟨by simp [hlen], fun j dp hj => ?_⟩
        cases j with
        | zero =>
          simp only [List.getElem?_cons_zero, Option.some.injEq] at hj
          subst hj
          exact ⟨result, hr, by simp⟩
        | succ j =>
          simp only [List.getElem?_cons_succ] at hj
          obtain ⟨r, h1, h2⟩ := hget j dp hj
          exact ⟨r, h1, by simpa using h2⟩

theorem checkPermissions_spec (lower : Char → Char) (mem : Heap) (fuel : Nat)
    (dps : List Ptr) :
    ∀ (cities : List City) (out : List PermissionRecord),
      checkPermissions lower mem fuel cities dps = some out →
      out.length = cities.length * dps.length ∧
        ∀ (i j : Nat) (city : City) (dp : Ptr), cities[i]? = some city → dps[j]? = some dp →
          ∃ r, hasPermissions lower mem fuel dp city = some r ∧
            out[i * dps.length + j]? =
              some ({ DistributorName := (mem dp).DistributorName, Name := city.Name,
                      Province := city.Province, Country := city.Country,
                      Result := r } : PermissionRecord) := by
  intro cities
  induction cities with
  | nil =>
    intro out h
    simp only [checkPermissions, Option.some.injEq] at h
    subst h
    exact ⟨by simp, fun i j city dp hi _ => by simp at hi⟩
  | cons c rest ih =>
    intro out h
    simp only [checkPermissions] at h
    cases hrow : checkPermissionsInner lower mem fuel c dps with
    | none => simp [hrow] at h
    | some row =>
      cases ho : checkPermissions lower mem fuel rest dps with
      | none => simp [hrow, ho] at h
      | some out2 =>
        simp only [hrow, ho, Option.some.injEq] at h
        subst h
        obtain ⟨hlen, hget⟩ := ih out2 ho
        obtain ⟨hrlen, hrget⟩ := checkPermissionsInner_spec lower mem fuel c dps row hrow
        refine ⟨by simp [hlen, hrlen, Nat.succ_mul, Nat.add_comm], fun i j city dp hi hj => ?_⟩
        have hjlt : j < dps.length := (List.getElem?_eq_some_iff.1 hj).1
        cases i with
        | zero =>
          simp only [List.getElem?_cons_zero, Option.some.injEq] at hi
          subst hi
          obtain ⟨r, h1, h2⟩ := hrget j dp hj
          refine ⟨r, h1, ?_⟩
          rw [Nat.zero_mul, Nat.zero_add, List.getElem?_append_left (by omega)]
          exact h2
        | succ i =>
          simp only [List.getElem?_cons_succ] at hi
          obtain ⟨r, h1, h2⟩ := hget i j city dp hi hj
          refine ⟨r, h1, ?_⟩
          have hidx : (i + 1) * dps.length + j = row.length + (i * dps.length + j) := by
            rw [Nat.succ_mul, hrlen]; omega
          rw [hidx, List.getElem?_append_right (by omega), Nat.add_sub_cancel_left]
          exact h2

theorem checkPermissionsInner_isSome (lower : Char → Char) (mem : Heap) (fuel : Nat)
    (city : City) :
    ∀ dps : List Ptr, (∀ dp ∈ dps, ∃ r, hasPermissions lower mem fuel dp city = some r) →
      ∃ row, checkPermissionsInner lower mem fuel city dps = some row := by
  intro dps
  induction dps with
  | nil => intro _; exact ⟨[], rfl⟩
  | cons d rest ih =>
    intro h
    obtain ⟨r, hr⟩ := h d (List.mem_cons_self _ _)
    obtain ⟨row, hrow⟩ := ih (fun dp hdp => h dp (List.mem_cons_of_mem _ hdp))
    exact ⟨_, by rw [checkPermissionsInner, hr, hrow]⟩

theorem checkPermissions_isSome (lower : Char → Char) (mem : Heap) (fuel : Nat)
    (dps : List Ptr)
    (h : ∀ dp ∈ dps, ∀ city, ∃ r, hasPermissions lower mem fuel dp city = some r) :
    ∀ cities : List City, ∃ out, checkPermissions lower mem fuel cities dps = some out := by
  intro cities
  induction cities with
  | nil => exact ⟨[], rfl⟩
  | cons c rest ih =>
    obtain ⟨row, hrow⟩ :=
      checkPermissionsInner_isSome lower mem fuel c dps (fun dp hdp => h dp hdp c)
    obtain ⟨out, hout⟩ := ih
    exact ⟨_, by rw [checkPermissions, hrow, hout]⟩

/-- One amount of fuel serves all rule sets of a list with finite chains. -/
theorem exists_fuel_of_finiteChains (lower : Char → Char) (mem : Heap) :
    ∀ dps : List Ptr, (∀ dp ∈ dps, FiniteChain mem dp) →
      ∃ fuel, ∀ dp ∈ dps, ∀ city, ∃ r, hasPermissions lower mem fuel dp city = some r := by
  intro dps
  induction dps with
  | nil => intro _; exact ⟨0, fun dp hdp => by simp at hdp⟩
  | cons d rest ih =>
    intro h
    obtain ⟨f1, hf1⟩ := ih (fun dp hdp => h dp (List.mem_cons_of_mem _ hdp))
    obtain ⟨n, hn⟩ := h d (List.mem_cons_self _ _)
    refine ⟨max f1 (n + 1), fun dp hdp city => ?_⟩
    rcases List.mem_cons.1 hdp with hd | hd
    · subst hd
      obtain ⟨r, hr⟩ := Returns_of_chainEnds lower mem city n dp hn
      exact ⟨r, hasPermissions_mono lower mem city (n + 1) _ dp r hr (le_max_right _ _)⟩
    · obtain ⟨r, hr⟩ := hf1 dp hd city
      exact ⟨r, hasPermissions_mono lower mem city f1 _ dp r hr (le_max_left _ _)⟩

/-- C13 (the driver emits the full Cartesian product in city-major order): for
cities `c_0..c_(m-1)` and rule sets `r_0..r_(n-1)` with finite parent chains,
`checkPermissions` produces a list of exactly `m * n` result records, and the
record at position `i * n + j` carries the DistributorName of `r_j`, the Name,
Province and Country of `c_i`, and the value that `hasPermissions` returns on
`r_j` and `c_i`. -/
theorem driver_cartesian_product (lower : Char → Char) (mem : Heap) (cities : List City)
    (dps : List Ptr) (hfin : ∀ dp ∈ dps, FiniteChain mem dp) :
    ∃ fuel out, checkPermissions lower mem fuel cities dps = some out ∧
      out.length = cities.length * dps.length ∧
      ∀ (i j : Nat) (city : City) (dp : Ptr), cities[i]? = some city → dps[j]? = some dp →
        ∃ r, Returns lower mem dp city r ∧
          out[i * dps.length + j]? =
            some ({ DistributorName := (mem dp).DistributorName, Name := city.Name,
                    Province := city.Province, Country := city.Country,
                    Result := r } : PermissionRecord) := by
  obtain ⟨fuel, hfuel⟩ := exists_fuel_of_finiteChains lower mem dps hfin
  obtain ⟨out, hout⟩ := checkPermissions_isSome lower mem fuel dps hfuel cities
  obtain ⟨hlen, hget⟩ := checkPermissions_spec lower mem fuel dps cities out hout
  refine ⟨fuel, out, hout, hlen, fun i j city dp hi hj => ?_⟩
  obtain ⟨r, h1, h2⟩ := hget i j city dp hi hj
  exact ⟨r, ⟨fuel, h1⟩, h2⟩

/-- Witness of C13: two cities against the two rule sets of `exampleHeap`. -/
theorem driver_cartesian_product_witness :
    checkPermissions Char.toLower exampleHeap 2 [paris, berlin] [0, 1] =
        some [⟨"A", "Paris", "Ile-de-France", "France", "YES"⟩,
              ⟨"B", "Paris", "Ile-de-France", "France", "NO"⟩,
              ⟨"A", "Berlin", "Berlin", "Germany", "NO"⟩,
              ⟨"B", "Berlin", "Berlin", "Germany", "NO"⟩] ∧
      ∃ fuel out, checkPermissions Char.toLower exampleHeap fuel [paris, berlin] [0, 1] = some out ∧
        out.length = [paris, berlin].length * [0, 1].length ∧
        ∀ (i j : Nat) (city : City) (dp : Ptr), [paris, berlin][i]? = some city →
          [0, 1][j]? = some dp →
          ∃ r, Returns Char.toLower exampleHeap dp city r ∧
            out[i * [0, 1].length + j]? =
              some ({ DistributorName := (exampleHeap dp).DistributorName, Name := city.Name,
                      Province := city.Province, Country := city.Country,
                      Result := r } : PermissionRecord) :=
  ⟨by decide,
    driver_cartesian_product Char.toLower exampleHeap [paris, berlin] [0, 1] (by
      intro dp hdp
      rcases List.mem_cons.1 hdp with h | h
      · subst h; exact ⟨0, by decide⟩
      · rw [List.mem_singleton] at h
        subst h; exact ⟨1, by decide⟩)⟩

/-! ## Rule input -/

theorem skipSpace_some (stdin : List Char) :
    ∀ rest, skipSpace stdin = some rest → ∀ c cs, rest = c :: cs → isSpace c = false := by
  induction stdin with
  | nil => intro rest h c cs hr; simp [skipSpace] at h; subst h; simp at hr
  | cons d ds ih =>
    intro rest h c cs hr
    simp only [skipSpace] at h
    split at h
    · exact ih rest h c cs hr
    · split at h
      · simp at h
      · split at h
        · exact ih rest h c cs hr
        · rename_i hsp
          simp only [Option.some.injEq] at h
          rw [← h] at hr
          simp only [List.cons.injEq] at hr
          rw [← hr.1]
          simpa using hsp

theorem fmt_Scanln_token (stdin : List Char) (token : String) (rest : List Char)
    (h : fmt_Scanln stdin = some (token, rest)) :
    token.data ≠ [] ∧ ∀ c ∈ token.data, isSpace c = false := by
  unfold fmt_Scanln at h
  split at h
  · simp at h
  · simp at h
  · rename_i c cs hskip
    have hc := skipSpace_some stdin (c :: cs) hskip c cs rfl
    split at h
    · simp at h
    · simp only [Option.some.injEq, Prod.mk.injEq] at h
      rw [← h.1]
      constructor
      · simp [List.takeWhile, hc]
      · intro x hx
        have := List.mem_takeWhile_imp hx
        simpa using this

theorem skipSpace_of_not_space (c : Char) (cs : List Char) (hc : isSpace c = false) :
    skipSpace (c :: cs) = some (c :: cs) := by
  have h1 : c ≠ '\r' := by intro h; rw [h] at hc; exact absurd hc (by decide)
  have h2 : c ≠ '\n' := by intro h; rw [h] at hc; exact absurd hc (by decide)
  simp [skipSpace, h1, h2, hc]

theorem fmt_Scanln_line (token : String) (rest : List Char) (hne : token.data ≠ [])
    (hns : ∀ c ∈ token.data, isSpace c = false) :
    fmt_Scanln (token.data ++ '\n' :: rest) = some (token, rest) := by
  cases htd : token.data with
  | nil => exact absurd htd hne
  | cons c cs =>
    have hall : ∀ a ∈ c :: cs, (fun r => !isSpace r) a = true := by
      intro a ha
      rw [← htd] at ha
      simp [hns a ha]
    have hc : isSpace c = false := hns c (by rw [htd]; exact List.mem_cons_self _ _)
    have hnl : (fun r => !isSpace r) '\n' = false := by decide
    have htake : List.takeWhile (fun r => !isSpace r) (c :: (cs ++ '\n' :: rest)) = c :: cs := by
      rw [← List.cons_append, List.takeWhile_append_of_pos hall]
      simp [List.takeWhile, hnl]
    have hdrop : List.dropWhile (fun r => !isSpace r) (c :: (cs ++ '\n' :: rest)) =
        '\n' :: rest := by
      rw [← List.cons_append, List.dropWhile_append_of_pos hall]
      simp [List.dropWhile, hnl]
    unfold fmt_Scanln
    rw [List.cons_append, skipSpace_of_not_space c _ hc]
    simp only [htake, hdrop, expectNewline, if_true]
    congr 2
    exact String.ext (by simp [htd])

theorem splitChars_ne_nil (sep : Char) (l : List Char) : splitChars sep l ≠ [] := by
  cases l with
  | nil => simp [splitChars]
  | cons c cs =>
    simp only [splitChars]
    split
    · simp
    · split <;> simp

theorem intercalate_cons_cons (sep : List Char) (c : Char) (piece : List Char)
    (pieces : List (List Char)) :
    List.intercalate sep ((c :: piece) :: pieces) = c :: List.intercalate sep (piece :: pieces) := by
  cases pieces with
  | nil => simp [List.intercalate]
  | cons q qs => simp [List.intercalate]

theorem intercalate_nil_cons (sep : List Char) (q : List Char) (qs : List (List Char)) :
    List.intercalate sep ([] :: q :: qs) = sep ++ List.intercalate sep (q :: qs) := by
  simp [List.intercalate]

theorem intercalate_splitChars (sep : Char) (l : List Char) :
    List.intercalate [sep] (splitChars sep l) = l := by
  induction l with
  | nil => simp [splitChars, List.intercalate]
  | cons c cs ih =>
    simp only [splitChars]
    cases h : splitChars sep cs with
    | nil => exact absurd h (splitChars_ne_nil sep cs)
    | cons q qs =>
      rw [h] at ih
      by_cases hc : c = sep
      · simp only [hc, if_true, intercalate_nil_cons, ih]
        rfl
      · simp only [hc, if_false, intercalate_cons_cons, ih]

theorem not_mem_of_mem_splitChars (sep : Char) (l : List Char) :
    ∀ piece ∈ splitChars sep l, sep ∉ piece := by
  induction l with
  | nil => simp [splitChars]
  | cons c cs ih =>
    intro piece hp
    simp only [splitChars] at hp
    cases h : splitChars sep cs with
    | nil => exact absurd h (splitChars_ne_nil sep cs)
    | cons q qs =>
      rw [h] at ih hp
      by_cases hc : c = sep
      · simp only [hc, if_true, List.mem_cons] at hp
        rcases hp with rfl | hp
        · simp
        · exact ih piece (List.mem_cons.2 hp)
      · simp only [hc, if_false, List.mem_cons] at hp
        rcases hp with rfl | hp
        · intro hmem
          rcases List.mem_cons.1 hmem with h1 | h1
          · exact hc h1.symm
          · exact ih q (List.mem_cons_self _ _) h1
        · exact ih piece (List.mem_cons_of_mem _ hp)

/-- Every code point of a piece comes from the input. -/
theorem mem_of_mem_splitChars (sep : Char) (l : List Char) :
    ∀ piece ∈ splitChars sep l, ∀ c ∈ piece, c ∈ l := by
  induction l with
  | nil => simp [splitChars]
  | cons d ds ih =>
    intro piece hp c hc
    simp only [splitChars] at hp
    cases h : splitChars sep ds with
    | nil => exact absurd h (splitChars_ne_nil sep ds)
    | cons q qs =>
      rw [h] at ih hp
      by_cases hd : d = sep
      · simp only [hd, if_true, List.mem_cons] at hp
        rcases hp with rfl | hp
        · simp at hc
        · exact List.mem_cons_of_mem _ (ih piece (List.mem_cons.2 hp) c hc)
      · simp only [hd, if_false, List.mem_cons] at hp
        rcases hp with rfl | hp
        · rcases List.mem_cons.1 hc with h1 | h1
          · rw [h1]; exact List.mem_cons_self _ _
          · exact List.mem_cons_of_mem _ (ih q (List.mem_cons_self _ _) c h1)
        · exact List.mem_cons_of_mem _ (ih piece (List.mem_cons_of_mem _ hp) c hc)

theorem splitChars_of_not_mem (sep : Char) (piece : List Char) (h : sep ∉ piece) :
    splitChars sep piece = [piece] := by
  induction piece with
  | nil => rfl
  | cons c cs ih =>
    have hc : c ≠ sep := fun e => h (by rw [e]; exact List.mem_cons_self _ _)
    have hcs : sep ∉ cs := fun e => h (List.mem_cons_of_mem _ e)
    simp [splitChars, hc, ih hcs]

theorem splitChars_append_sep (sep : Char) (piece rest : List Char) (h : sep ∉ piece) :
    splitChars sep (piece ++ sep :: rest) = piece :: splitChars sep rest := by
  induction piece with
  | nil => simp [splitChars]
  | cons c cs ih =>
    have hc : c ≠ sep := fun e => h (by rw [e]; exact List.mem_cons_self _ _)
    have hcs : sep ∉ cs := fun e => h (List.mem_cons_of_mem _ e)
    simp [splitChars, hc, ih hcs]

/-- The pieces are determined by the input: a non-empty list of separator-free
pieces is what `splitChars` returns on their concatenation with separators. -/
theorem splitChars_intercalate (sep : Char) :
    ∀ pieces : List (List Char), pieces ≠ [] → (∀ piece ∈ pieces, sep ∉ piece) →
      splitChars sep (List.intercalate [sep] pieces) = pieces := by
  intro pieces
  induction pieces with
  | nil => intro h; exact absurd rfl h
  | cons p ps ih =>
    intro _ hall
    cases ps with
    | nil =>
      have : List.intercalate [sep] [p] = p := by simp [List.intercalate]
      rw [this]
      exact splitChars_of_not_mem sep p (hall p (List.mem_cons_self _ _))
    | cons q qs =>
      have : List.intercalate [sep] (p :: q :: qs) =
          p ++ sep :: List.intercalate [sep] (q :: qs) := by
        simp [List.intercalate]
      rw [this, splitChars_append_sep sep p _ (hall p (List.mem_cons_self _ _)),
        ih (by simp) (fun piece hp => hall piece (List.mem_cons_of_mem _ hp))]

theorem trimChars_of_not_mem (cutset piece : List Char) (h : ∀ c ∈ piece, c ∉ cutset) :
    trimChars cutset piece = piece := by
  unfold trimChars
  have h1 : List.dropWhile (fun c => cutset.contains c) piece = piece := by
    cases piece with
    | nil => rfl
    | cons c cs =>
      have := h c (List.mem_cons_self _ _)
      simp [List.dropWhile, this]
  rw [h1, List.rdropWhile_eq_self_iff]
  intro hl
  have := h _ (List.getLast_mem hl)
  simpa using this

theorem trimChars_head (cutset l : List Char) :
    ∀ c, (trimChars cutset l).head? = some c → c ∉ cutset := by
  intro c hc
  unfold trimChars at hc
  obtain ⟨t, ht⟩ := List.rdropWhile_prefix (fun c => cutset.contains c)
    (l := l.dropWhile (fun c => cutset.contains c))
  have h2 := List.head?_dropWhile_not (fun c => cutset.contains c) l
  rw [← ht] at h2
  cases hr : List.rdropWhile (fun c => cutset.contains c)
      (List.dropWhile (fun c => cutset.contains c) l) with
  | nil => rw [hr] at hc; simp at hc
  | cons x xs =>
    rw [hr] at hc h2
    simp only [List.head?_cons, Option.some.injEq] at hc
    subst hc
    simpa using h2

theorem trimChars_getLast (cutset l : List Char) :
    ∀ c, (trimChars cutset l).getLast? = some c → c ∉ cutset := by
  intro c hc
  unfold trimChars at hc
  have hne : List.rdropWhile (fun c => cutset.contains c)
      (List.dropWhile (fun c => cutset.contains c) l) ≠ [] := by
    intro h; rw [h] at hc; simp at hc
  have h2 := List.rdropWhile_last_not (fun c => cutset.contains c)
    (List.dropWhile (fun c => cutset.contains c) l) hne
  rw [List.getLast?_eq_getLast _ hne] at hc
  simp only [Option.some.injEq] at hc
  rw [hc] at h2
  simpa using h2

theorem trimChars_decompose (cutset l : List Char) :
    ∃ a b, l = a ++ trimChars cutset l ++ b ∧ (∀ c ∈ a, c ∈ cutset) ∧ ∀ c ∈ b, c ∈ cutset := by
  refine ⟨l.takeWhile (fun c => cutset.contains c),
    ((l.dropWhile (fun c => cutset.contains c)).reverse.takeWhile
      (fun c => cutset.contains c)).reverse, ?_, ?_, ?_⟩
  · unfold trimChars List.rdropWhile
    rw [List.append_assoc, ← List.reverse_append, List.takeWhile_append_dropWhile,
      List.reverse_reverse, List.takeWhile_append_dropWhile]
  · intro c hc
    simpa using List.mem_takeWhile_imp hc
  · intro c hc
    rw [List.mem_reverse] at hc
    simpa using List.mem_takeWhile_imp hc

theorem commaPieces_unique (input : String) (stored other : List String)
    (h1 : CommaPieces input stored) (h2 : CommaPieces input other) : other = stored := by
  have e1 := splitChars_intercalate ',' (stored.map String.data) (by simpa using h1.2.1)
    (by intro piece hp; obtain ⟨t, ht, rfl⟩ := List.mem_map.1 hp; exact h1.2.2 t ht)
  have e2 := splitChars_intercalate ',' (other.map String.data) (by simpa using h2.2.1)
    (by intro piece hp; obtain ⟨t, ht, rfl⟩ := List.mem_map.1 hp; exact h2.2.2 t ht)
  rw [h1.1] at e1
  rw [h2.1, e1] at e2
  have hinj : Function.Injective String.data := fun a b hab => String.ext hab
  exact (List.map_injective_iff.2 hinj e2).symm

theorem parseRegions_of_no_space (input : String) (hns : ∀ c ∈ input.data, isSpace c = false) :
    parseRegions input = (splitChars ',' input.data).map String.mk := by
  simp only [parseRegions, strings_Split, strings_Trim, List.map_map]
  apply List.map_congr_left
  intro piece hp
  simp only [Function.comp]
  congr 1
  apply trimChars_of_not_mem
  intro c hc hcut
  have hsp : c = ' ' := by simpa using hcut
  have := hns c (mem_of_mem_splitChars ',' input.data piece hp c hc)
  rw [hsp] at this
  exact absurd this (by decide)

theorem commaPieces_parseRegions (input : String)
    (hns : ∀ c ∈ input.data, isSpace c = false) :
    CommaPieces input (parseRegions input) ∧
      ∀ token ∈ parseRegions input, ∀ c ∈ token.data, isSpace c = false := by
  rw [parseRegions_of_no_space input hns]
  refine ⟨⟨?_, ?_, ?_⟩, ?_⟩
  · rw [List.map_map]
    have : (String.data ∘ String.mk) = id := rfl
    rw [this, List.map_id]
    exact intercalate_splitChars ',' input.data
  · simpa using splitChars_ne_nil ',' input.data
  · intro token ht
    obtain ⟨piece, hp, rfl⟩ := List.mem_map.1 ht
    exact not_mem_of_mem_splitChars ',' input.data piece hp
  · intro token ht c hc
    obtain ⟨piece, hp, rfl⟩ := List.mem_map.1 ht
    exact hns c (mem_of_mem_splitChars ',' input.data piece hp c hc)

theorem startsOrEndsWith_eq_false (p : Char → Bool) (token : String)
    (h : ∀ c ∈ token.data, p c = false) : startsOrEndsWith p token = false := by
  unfold startsOrEndsWith
  rw [Bool.or_eq_false_iff]
  constructor
  · cases hh : token.data.head? with
    | none => rfl
    | some c => simpa using h c (List.mem_of_mem_head? hh)
  · cases hh : token.data.getLast? with
    | none => rfl
    | some c => simpa using h c (List.mem_of_mem_getLast? hh)

theorem isSpace_of_isWhitespace (c : Char) (h : c.isWhitespace = true) : isSpace c = true := by
  simp only [Char.isWhitespace, Bool.or_eq_true, decide_eq_true_eq] at h
  rcases h with ((h | h) | h) | h <;> (rw [h]; decide)

theorem isToken_iff (s : String) :
    isToken s = true ↔ s.data ≠ [] ∧ ∀ c ∈ s.data, isSpace c = false := by
  simp [isToken, List.isEmpty_iff]

theorem storedAsClaimed_parseRegions (input : String) (h : isToken input = true) :
    StoredAsClaimed input (parseRegions input) := by
  have hns := ((isToken_iff input).1 h).2
  obtain ⟨h1, h2⟩ := commaPieces_parseRegions input hns
  exact ⟨h1, fun other ho => commaPieces_unique input _ other h1 ho,
    fun token ht => startsOrEndsWith_eq_false isSpace token (h2 token ht)⟩

theorem getDistributorPermissionsFromUser_some (stdin : List Char) (dp : DistributorPermissions)
    (rest : List Char) (h : getDistributorPermissionsFromUser stdin = some (dp, rest)) :
    ∃ distributorName includeInput excludeInput stdin1 stdin2,
      fmt_Scanln stdin = some (distributorName, stdin1) ∧
      fmt_Scanln stdin1 = some (includeInput, stdin2) ∧
      fmt_Scanln stdin2 = some (excludeInput, rest) ∧
      dp = { DistributorName := distributorName, IncludeRegion := parseRegions includeInput,
             ExcludeRegion := parseRegions excludeInput, Parent := none } := by
  unfold getDistributorPermissionsFromUser at h
  cases h1 : fmt_Scanln stdin with
  | none => simp [h1] at h
  | some r1 =>
    obtain ⟨name, s1⟩ := r1
    cases h2 : fmt_Scanln s1 with
    | none => simp [h1, h2] at h
    | some r2 =>
      obtain ⟨inc, s2⟩ := r2
      cases h3 : fmt_Scanln s2 with
      | none => simp [h1, h2, h3] at h
      | some r3 =>
        obtain ⟨exc, s3⟩ := r3
        simp only [h1, h2, h3, Option.some.injEq, Prod.mk.injEq] at h
        exact ⟨name, inc, exc, s1, s2, rfl, h2, by rw [h3, h.2], h.1.symm⟩

/-- C14 (rule-string parsing): whenever `getDistributorPermissionsFromUser`
stores a rule set, its include and its exclude list are each the sequence of
the comma-delimited pieces, in input order, of the string that was read for
it, and no stored token begins or ends with a whitespace character; and for
every three strings that `fmt.Scanln` can deliver, typed on three lines, the
function does store such a rule set. -/
theorem rule_parsing :
    (∀ (stdin : List Char) (dp : DistributorPermissions) (rest : List Char),
      getDistributorPermissionsFromUser stdin = some (dp, rest) →
      ∃ distributorName includeInput excludeInput stdin1 stdin2,
        fmt_Scanln stdin = some (distributorName, stdin1) ∧
        fmt_Scanln stdin1 = some (includeInput, stdin2) ∧
        fmt_Scanln stdin2 = some (excludeInput, rest) ∧
        StoredAsClaimed includeInput dp.IncludeRegion ∧
        StoredAsClaimed excludeInput dp.ExcludeRegion) ∧
    (∀ (distributorName includeInput excludeInput : String) (rest : List Char),
      isToken distributorName = true → isToken includeInput = true →
      isToken excludeInput = true →
      ∃ dp, getDistributorPermissionsFromUser
            (distributorName.data ++ '\n' :: (includeInput.data ++ '\n' ::
              (excludeInput.data ++ '\n' :: rest))) = some (dp, rest) ∧
        dp.DistributorName = distributorName ∧ dp.Parent = none ∧
        StoredAsClaimed includeInput dp.IncludeRegion ∧
        StoredAsClaimed excludeInput dp.ExcludeRegion) := by
  constructor
  · intro stdin dp rest h
    obtain ⟨name, inc, exc, s1, s2, h1, h2, h3, hdp⟩ :=
      getDistributorPermissionsFromUser_some stdin dp rest h
    refine ⟨name, inc, exc, s1, s2, h1, h2, h3, ?_, ?_⟩
    · rw [hdp]
      exact storedAsClaimed_parseRegions inc ((isToken_iff inc).2 (fmt_Scanln_token s1 inc s2 h2))
    · rw [hdp]
      exact storedAsClaimed_parseRegions exc
        ((isToken_iff exc).2 (fmt_Scanln_token s2 exc rest h3))
  · intro name inc exc rest hn hi he
    have tn := (isToken_iff name).1 hn
    have ti := (isToken_iff inc).1 hi
    have te := (isToken_iff exc).1 he
    refine ⟨{ DistributorName := name, IncludeRegion := parseRegions inc,
              ExcludeRegion := parseRegions exc, Parent := none }, ?_, rfl, rfl,
      storedAsClaimed_parseRegions inc hi, storedAsClaimed_parseRegions exc he⟩
    unfold getDistributorPermissionsFromUser
    rw [fmt_Scanln_line name _ tn.1 tn.2]
    simp only
    rw [fmt_Scanln_line inc _ ti.1 ti.2]
    simp only
    rw [fmt_Scanln_line exc _ te.1 te.2]

/-- Witness of C14: an input with spaces around the tokens and an empty piece
is stored piece by piece; an input with a tab after the comma is refused by
the read; three plain lines are stored. -/
theorem rule_parsing_witness :
    (∃ distributorName includeInput excludeInput stdin1 stdin2,
        fmt_Scanln "  Acme \r\nIndia,,China \nPeru".data = some (distributorName, stdin1) ∧
        fmt_Scanln stdin1 = some (includeInput, stdin2) ∧
        fmt_Scanln stdin2 = some (excludeInput, []) ∧
        StoredAsClaimed includeInput ["India", "", "China"] ∧
        StoredAsClaimed excludeInput ["Peru"]) ∧
      getDistributorPermissionsFromUser "Acme\nIndia,\tChina\nPeru\n".data = none ∧
      ∃ dp, getDistributorPermissionsFromUser
            ("Acme".data ++ '\n' :: ("India,China".data ++ '\n' :: ("Peru".data ++ '\n' :: []))) =
              some (dp, []) ∧
        dp.DistributorName = "Acme" ∧ dp.Parent = none ∧
        StoredAsClaimed "India,China" dp.IncludeRegion ∧
        StoredAsClaimed "Peru" dp.ExcludeRegion :=
  ⟨rule_parsing.1 "  Acme \r\nIndia,,China \nPeru".data
      ⟨"Acme", ["India", "", "China"], ["Peru"], none⟩ [] (by decide),
    by decide,
    rule_parsing.2 "Acme" "India,China" "Peru" [] (by decide) (by decide) (by decide)⟩

end Challenge2016
